import Mathlib

/-!
Verification of the MacXcodeMatch scrapers' text-normalization core.

Python strings are modeled as lists of characters (`Str`).  Each definition
below is a direct translation of the corresponding function of
`macos_compat_scraper.py` or `xcode_releases_scraper.py`; regular-expression
searches are translated into explicit scanners with the same leftmost-match
and greedy/backtracking behaviour as Python's `re` on the concrete patterns
used by the source.  Whitespace (`\s`, `str.strip`) and word characters
(`\w`, `\b`) are modeled over the character set that actually occurs in the
scraped tables (ASCII plus NBSP).
-/

abbrev Str := List Char

def strL (s : String) : Str := s.data

/-- Characters treated as whitespace by `str.strip()` and the regex class
`\s` (ASCII whitespace plus the no-break space). -/
def pySpace (c : Char) : Bool :=
  c = ' ' || c = '\t' || c = '\n' || c = '\r' || c = '\x0b' || c = '\x0c' || c = '\xa0'

/-- Word characters for the regex `\b` word-boundary test (`[A-Za-z0-9_]`). -/
def isWordChar (c : Char) : Bool := c.isAlpha || c.isDigit || c = '_'

/-- Python `str.strip()`. -/
def pyStrip (s : Str) : Str :=
  ((s.dropWhile pySpace).reverse.dropWhile pySpace).reverse

/-- Python `str.strip(chars)` for an explicit character set. -/
def pyStripChars (cs : List Char) (s : Str) : Str :=
  ((s.dropWhile (cs.contains ·)).reverse.dropWhile (cs.contains ·)).reverse

/-- Python `str.lower()`. -/
def pyLower (s : Str) : Str := s.map Char.toLower

/-- Python `int()` on a string of decimal digits. -/
def natOfDigits (s : Str) : Nat :=
  s.foldl (fun n c => 10 * n + (c.toNat - '0'.toNat)) 0

/-- One-lookahead scanner for the greedy regex fragment `\d+(?:\.\d+)*`
(as it behaves when entered on a digit): returns the current digit run,
the following list of `.digits` groups, and the unconsumed remainder. -/
def scanVer : Str → (Str × List Str × Str)
  | [] => ([], [], [])
  | c :: rest =>
    if c.isDigit then
      let (u, us, r) := scanVer rest
      (c :: u, us, r)
    else if c = '.' then
      match rest with
      | d :: rest2 =>
        if d.isDigit then
          let (u, us, r) := scanVer rest2
          ([], (d :: u) :: us, r)
        else ([], [], c :: d :: rest2)
      | [] => ([], [], [c])
    else ([], [], c :: rest)

/-- A matched `\d+(?:\.\d+)*` token, kept in structured form. -/
structure VerTok where
  d0 : Str
  units : List Str
deriving DecidableEq, Repr

def unitsStr (us : List Str) : Str := (us.map (fun u => '.' :: u)).flatten

def renderVer (v : VerTok) : Str := v.d0 ++ unitsStr v.units

/-- Greedy match of `\d+(?:\.\d+)*` at the start of `s` (`none` when `s`
does not start with a digit). -/
def parseVer (s : Str) : Option (VerTok × Str) :=
  match s with
  | c :: _ =>
    if c.isDigit then
      let (u, us, r) := scanVer s
      some ({ d0 := u, units := us }, r)
    else none
  | [] => none

/-- The regex character class `[–—-]` (en dash, em dash, hyphen). -/
def isDashChar (c : Char) : Bool := c = '–' || c = '—' || c = '-'

/-- `re.fullmatch(r"\d+(?:\.\d+)*(?:\s*[–—-]\s*\d+(?:\.\d+)*)?", s)`
from `normalize_os`. -/
def fullVersionOrRange (s : Str) : Bool :=
  match parseVer s with
  | none => false
  | some (_, rest) =>
    match rest with
    | [] => true
    | _ :: _ =>
      match rest.dropWhile pySpace with
      | d :: r2 =>
        if isDashChar d then
          match parseVer (r2.dropWhile pySpace) with
          | some (_, rest2) => rest2.isEmpty
          | none => false
        else false
      | [] => false

/-- Word-boundary test after a match that ends in a word character. -/
def boundaryAfter : Str → Bool
  | [] => true
  | c :: _ => !isWordChar c

/-- Attempt of `\b(\d+(?:\.\d+)*)\b` at the current position (the leading
boundary is checked by the caller).  When the trailing `\b` fails after the
greedy match, the regex engine backtracks by dropping the last `.digits`
group, after which the next character is a dot and the boundary holds. -/
def trySingleAt (s : Str) : Option Str :=
  match parseVer s with
  | none => none
  | some (v, rest) =>
    if boundaryAfter rest then some (renderVer v)
    else if v.units.isEmpty then none
    else some (renderVer { d0 := v.d0, units := v.units.dropLast })

def searchSingleGo (prevWord : Bool) : Str → Option Str
  | [] => none
  | c :: rest =>
    match (if !prevWord && c.isDigit then trySingleAt (c :: rest) else none) with
    | some g => some g
    | none => searchSingleGo (isWordChar c) rest

/-- `re.search(r"\b(\d+(?:\.\d+)*)\b", s)` returning the captured group. -/
def searchSingle (s : Str) : Option Str := searchSingleGo false s

/-- Attempt of `\b(\d+(?:\.\d+)*\s*[–—-]\s*\d+(?:\.\d+)*)\b` at the current
position.  Backtracking inside the first version token never succeeds
(a shortened token is followed by a dot where the regex needs `\s*[–—-]`),
so only the trailing token backtracks, exactly as in `trySingleAt`. -/
def tryRangeAt (s : Str) : Option Str :=
  match parseVer s with
  | none => none
  | some (v1, r1) =>
    let ws1 := r1.takeWhile pySpace
    match r1.dropWhile pySpace with
    | d :: r3 =>
      if isDashChar d then
        let ws2 := r3.takeWhile pySpace
        match parseVer (r3.dropWhile pySpace) with
        | none => none
        | some (v2, rest) =>
          if boundaryAfter rest then
            some (renderVer v1 ++ ws1 ++ d :: (ws2 ++ renderVer v2))
          else if v2.units.isEmpty then none
          else
            some (renderVer v1 ++ ws1 ++
              d :: (ws2 ++ renderVer { d0 := v2.d0, units := v2.units.dropLast }))
      else none
    | [] => none

def searchRangeGo (prevWord : Bool) : Str → Option Str
  | [] => none
  | c :: rest =>
    match (if !prevWord && c.isDigit then tryRangeAt (c :: rest) else none) with
    | some g => some g
    | none => searchRangeGo (isWordChar c) rest

/-- `re.search(r"\b(\d+(?:\.\d+)*\s*[–—-]\s*\d+(?:\.\d+)*)\b", s)` returning
the captured group. -/
def searchRange (s : Str) : Option Str := searchRangeGo false s

/-- `normalize_os` from `macos_compat_scraper.py`. -/
def normalize_os (os_text : Str) : Str :=
  let s := pyStrip os_text
  if fullVersionOrRange s then s
  else
    match searchRange s with
    | some g => g
    | none =>
      match searchSingle s with
      | some g => g
      | none => s

/-- The `re.search(r"(\d+)(?:\.(\d+))?", os_str)` extraction inside
`should_include_os`, with `int` conversion and the default minor of 0. -/
def firstMajorMinor : Str → Option (Nat × Nat)
  | [] => none
  | c :: rest =>
    if c.isDigit then
      let major := (c :: rest).takeWhile Char.isDigit
      let minor :=
        match (c :: rest).dropWhile Char.isDigit with
        | '.' :: r2 =>
          match r2 with
          | e :: _ => if e.isDigit then natOfDigits (r2.takeWhile Char.isDigit) else 0
          | [] => 0
        | _ => 0
      some (natOfDigits major, minor)
    else firstMajorMinor rest

/-- `should_include_os` from `macos_compat_scraper.py`. -/
def should_include_os (os_str : Str) : Bool :=
  match firstMajorMinor os_str with
  | none => false
  | some (major, minor) =>
    decide (11 ≤ major) || (major == 10 && decide (8 ≤ minor))

/-- The inclusion condition as the specification phrases it, applied to the
optional first `major(.minor)?` token. -/
def claimThreshold : Option (Nat × Nat) → Prop
  | none => False
  | some (major, minor) => 11 ≤ major ∨ (major = 10 ∧ 8 ≤ minor)

/-! ## `clean_supported_systems` (macOS scraper) -/

/-- Python `str.split(",")`. -/
def splitComma : Str → List Str
  | [] => [[]]
  | c :: rest =>
    if c = ',' then [] :: splitComma rest
    else
      match splitComma rest with
      | t :: ts => (c :: t) :: ts
      | [] => [[c]]

/-- Case-insensitive literal match of `pat` (given lowercase) at the start
of `s`, returning the remainder. -/
def matchCI (pat : Str) (s : Str) : Option Str :=
  if pyLower (s.take pat.length) = pat then some (s.drop pat.length) else none

/-- The greedy optional `s?` after a matched label word. -/
def optS (r : Str) : Str :=
  match r with
  | c :: r2 => if c.toLower = 's' then r2 else r
  | [] => r

/-- The `\s*:\s*` tail of `LABEL_PAT`. -/
def tryColonTail (r : Str) : Option Str :=
  match r.dropWhile pySpace with
  | ':' :: r2 => some (r2.dropWhile pySpace)
  | _ => none

/-- Attempt of `(Laptops?|Desktops?)\s*:\s*` (IGNORECASE) at the current
position; the leading `\b` is checked by the caller. -/
def tryLabelAt (s : Str) : Option Str :=
  match matchCI (strL ("laptop")) s with
  | some r => tryColonTail (optS r)
  | none =>
    match matchCI (strL ("desktop")) s with
    | some r => tryColonTail (optS r)
    | none => none

/-- `LABEL_PAT.search`: leftmost match of `\b(Laptops?|Desktops?)\s*:\s*`,
returning the text before the match and the remainder after it. -/
def labelSearchGo (acc : Str) (prevWord : Bool) : Str → Option (Str × Str)
  | [] => none
  | c :: rest =>
    match (if !prevWord then tryLabelAt (c :: rest) else none) with
    | some r => some (acc.reverse, r)
    | none => labelSearchGo (c :: acc) (isWordChar c) rest

def labelSearch (s : Str) : Option (Str × Str) := labelSearchGo [] false s

/-- The `while` loop of `split_category_labels`.  `fuel` bounds the number
of iterations; it is always sufficient because every label match strictly
shortens the working string, and the exhaustion case mirrors the loop exit. -/
def splitLabelsGo : Nat → Str → List Str
  | 0, s => if s = [] then [] else [pyStripChars (strL (" ,")) s]
  | fuel + 1, s =>
    match labelSearch s with
    | none => if s = [] then [] else [pyStripChars (strL (" ,")) s]
    | some (left, after) =>
      let leftT := pyStripChars (strL (" ,")) left
      (if leftT = [] then [] else [leftT]) ++ splitLabelsGo fuel (pyStrip after)

/-- `split_category_labels` from `macos_compat_scraper.py`. -/
def split_category_labels (text : Str) : List Str :=
  splitLabelsGo (text.length + 1) (pyStrip text)

/-- `re.sub(r"\s{2,}", " ", s)`: a maximal run of two or more whitespace
characters becomes a single space; a single whitespace character stays. -/
def emitRun2 (pending : Str) : Str := if 2 ≤ pending.length then [' '] else pending

def collapseRuns2Go (pending : Str) : Str → Str
  | [] => emitRun2 pending.reverse
  | c :: rest =>
    if pySpace c then collapseRuns2Go (c :: pending) rest
    else emitRun2 pending.reverse ++ c :: collapseRuns2Go [] rest

def collapseRuns2 (s : Str) : Str := collapseRuns2Go [] s

/-- One token cleanup of `clean_supported_systems`:
`re.sub(r"\s{2,}", " ", sub).strip(" ,")`. -/
def cleanupToken (sub : Str) : Str := pyStripChars (strL (" ,")) (collapseRuns2 sub)

/-- The inner loops of `clean_supported_systems` over one label chunk:
split on commas, strip, drop empties, drop the junk token `"and"`,
clean up, keep non-empty results. -/
def chunkTokens (ch : Str) : List Str :=
  (((splitComma ch).map pyStrip).filter (fun c => c ≠ [])).filterMap (fun sub =>
    if pyLower sub = strL ("and") then none
    else if cleanupToken sub = [] then none
    else some (cleanupToken sub))

/-- The pre-deduplication token stream `out` of `clean_supported_systems`. -/
def rawTokens (raw_items : List Str) : List Str :=
  (raw_items.map (fun item => ((split_category_labels item).map chunkTokens).flatten)).flatten

/-- The `seen`-set deduplication loop of `clean_supported_systems`. -/
def dedupFirstGo (seen : List Str) : List Str → List Str
  | [] => []
  | s :: rest =>
    if seen.contains s then dedupFirstGo seen rest
    else s :: dedupFirstGo (s :: seen) rest

/-- `clean_supported_systems` from `macos_compat_scraper.py`. -/
def clean_supported_systems (raw_items : List Str) : List Str :=
  dedupFirstGo [] (rawTokens raw_items)

/-! ## Xcode releases scraper: `clean_version_text` -/

/-- `str.replace("&nbsp;", " ")`. -/
def replaceNbspSemi : Str → Str
  | '&' :: 'n' :: 'b' :: 's' :: 'p' :: ';' :: rest => ' ' :: replaceNbspSemi rest
  | c :: rest => c :: replaceNbspSemi rest
  | [] => []

/-- `str.replace("&nbsp", " ")` (applied after the semicolon form). -/
def replaceNbsp : Str → Str
  | '&' :: 'n' :: 'b' :: 's' :: 'p' :: rest => ' ' :: replaceNbsp rest
  | c :: rest => c :: replaceNbsp rest
  | [] => []

/-- The single-character replacements of `clean_version_text`: NBSP to
space, en/em dash to plain hyphen. -/
def charNorm (c : Char) : Char :=
  if c = '\xa0' then ' '
  else if c = '–' then '-'
  else if c = '—' then '-'
  else c

/-- `re.sub(r"\s+", " ", s)`: every maximal whitespace run becomes one
space. -/
def emitRun1 (pending : Str) : Str := if pending.isEmpty then [] else [' ']

def collapseRuns1Go (pending : Str) : Str → Str
  | [] => emitRun1 pending
  | c :: rest =>
    if pySpace c then collapseRuns1Go (c :: pending) rest
    else emitRun1 pending ++ c :: collapseRuns1Go [] rest

def collapseRuns1 (s : Str) : Str := collapseRuns1Go [] s

/-- `clean_version_text` from `xcode_releases_scraper.py`. -/
def clean_version_text (s : Str) : Str :=
  pyStrip (collapseRuns1 ((replaceNbsp (replaceNbspSemi s)).map charNorm))

/-! ## `parse_macos_versions` -/

/-- Match of `\d+\.(?:\d+|x)` at the start of `s` (the version core of the
macOS-requirement patterns). -/
def parseNXCore (s : Str) : Option (Str × Str) :=
  let d1 := s.takeWhile Char.isDigit
  if d1.isEmpty then none
  else
    match s.dropWhile Char.isDigit with
    | '.' :: r2 =>
      let d2 := r2.takeWhile Char.isDigit
      if d2.isEmpty then
        match r2 with
        | 'x' :: r3 => some (d1 ++ '.' :: ['x'], r3)
        | _ => none
      else some (d1 ++ '.' :: d2, r2.dropWhile Char.isDigit)
    | _ => none

/-- The greedy optional `(?:\.\d+)?` continuation after a matched token. -/
def parseNXOpt (core : Str) (rest : Str) : Option (Str × Str) :=
  match rest with
  | '.' :: r2 =>
    let d3 := r2.takeWhile Char.isDigit
    if d3.isEmpty then none
    else some (core ++ '.' :: d3, r2.dropWhile Char.isDigit)
  | _ => none

/-- `\d+\.(?:\d+|x)(?:\.\d+)?` greedily (no backtracking needed when
nothing follows the token). -/
def parseNXGreedy (s : Str) : Option (Str × Str) :=
  match parseNXCore s with
  | none => none
  | some (core, rest) =>
    match parseNXOpt core rest with
    | some (tok, rest2) => some (tok, rest2)
    | none => some (core, rest)

/-- The optional redundant codename `(?:macOS\s+\w+\s+)` before the second
range token (`macOS` is matched case-sensitively).  Shorter `\w+` or `\s+`
alternatives always fail the following requirement, so the greedy matches
are forced. -/
def parseCodename (s : Str) : Option Str :=
  match s with
  | 'm' :: 'a' :: 'c' :: 'O' :: 'S' :: r =>
    if (r.takeWhile pySpace).isEmpty then none
    else
      let r2 := r.dropWhile pySpace
      if (r2.takeWhile isWordChar).isEmpty then none
      else
        let r3 := r2.dropWhile isWordChar
        if (r3.takeWhile pySpace).isEmpty then none
        else some (r3.dropWhile pySpace)
  | _ => none

/-- Tail of the range pattern after a candidate first token:
`\s*[-–]\s*(?:macOS\s+\w+\s+)?(\d+\.(?:\d+|x)(?:\.\d+)?)`, trying the
codename branch first, as the regex engine does. -/
def tryMacRangeTail (t1 : Str) (rest : Str) : Option (Str × Str) :=
  match rest.dropWhile pySpace with
  | d :: r3 =>
    if d = '-' || d = '–' then
      let r4 := r3.dropWhile pySpace
      match (match parseCodename r4 with
             | some r5 => parseNXGreedy r5
             | none => none) with
      | some (t2, _) => some (t1, t2)
      | none =>
        match parseNXGreedy r4 with
        | some (t2, _) => some (t1, t2)
        | none => none
    else none
  | [] => none

/-- Attempt of the full range pattern at the current position; the first
token's optional third component is tried greedily first (backtracking
order of the regex engine). -/
def tryMacRangeAt (s : Str) : Option (Str × Str) :=
  match parseNXCore s with
  | none => none
  | some (core, rest) =>
    match (match parseNXOpt core rest with
           | some (t1, rest2) => tryMacRangeTail t1 rest2
           | none => none) with
    | some p => some p
    | none => tryMacRangeTail core rest

def macRangeSearchGo : Str → Option (Str × Str)
  | [] => none
  | c :: rest =>
    match tryMacRangeAt (c :: rest) with
    | some p => some p
    | none => macRangeSearchGo rest

/-- The `re.search` of the range pattern in `parse_macos_versions`,
returning the two captured version tokens (the pattern has no `\b`, so
every position is a candidate). -/
def macRangeSearch (s : Str) : Option (Str × Str) := macRangeSearchGo s

/-- Attempt of `\b(\d+\.\d+(?:\.\d+)?)\b` at the current position. -/
def tryDottedAt (s : Str) : Option Str :=
  let d1 := s.takeWhile Char.isDigit
  if d1.isEmpty then none
  else
    match s.dropWhile Char.isDigit with
    | '.' :: r2 =>
      let d2 := r2.takeWhile Char.isDigit
      if d2.isEmpty then none
      else
        let core := d1 ++ '.' :: d2
        let rest := r2.dropWhile Char.isDigit
        match parseNXOpt core rest with
        | some (tok, rest2) =>
          if boundaryAfter rest2 then some tok
          else if boundaryAfter rest then some core
          else none
        | none => if boundaryAfter rest then some core else none
    | _ => none

def dottedSearchGo (prevWord : Bool) : Str → Option Str
  | [] => none
  | c :: rest =>
    match (if !prevWord && c.isDigit then tryDottedAt (c :: rest) else none) with
    | some g => some g
    | none => dottedSearchGo (isWordChar c) rest

/-- The first element of `re.findall(r"\b(\d+\.\d+(?:\.\d+)?)\b", s)`
(only the first match is ever used by the source). -/
def firstDotted (s : Str) : Option Str := dottedSearchGo false s

/-- Attempt of `\b(\d+\.(?:\d+|x)(?:\.\d+)?)\b` at the current position. -/
def tryVerXAt (s : Str) : Option Str :=
  match parseNXCore s with
  | none => none
  | some (core, rest) =>
    match parseNXOpt core rest with
    | some (tok, rest2) =>
      if boundaryAfter rest2 then some tok
      else if boundaryAfter rest then some core
      else none
    | none => if boundaryAfter rest then some core else none

def verXSearchGo (prevWord : Bool) : Str → Option Str
  | [] => none
  | c :: rest =>
    match (if !prevWord && c.isDigit then tryVerXAt (c :: rest) else none) with
    | some g => some g
    | none => verXSearchGo (isWordChar c) rest

/-- `re.search(r"\b(\d+\.(?:\d+|x)(?:\.\d+)?)\b", s)`. -/
def verXSearch (s : Str) : Option Str := verXSearchGo false s

/-- Python substring membership `needle in hay`. -/
def containsSub (needle : Str) : Str → Bool
  | [] => needle.isEmpty
  | c :: rest => needle.isPrefixOf (c :: rest) || containsSub needle rest

/-- Steps of `parse_macos_versions` after the range and "or later" checks:
the `.x`-aware single-version search, then the plain-dotted fallback,
then the empty string. -/
def macVersionTail (t : Str) : Str :=
  match verXSearch t with
  | some v => v
  | none =>
    match firstDotted t with
    | some v => v
    | none => []

/-- `parse_macos_versions` from `xcode_releases_scraper.py`. -/
def parse_macos_versions (text : Str) : Str :=
  let t := clean_version_text text
  match macRangeSearch t with
  | some (a, b) => a ++ ' ' :: '-' :: ' ' :: b
  | none =>
    if containsSub (strL ("or later")) (pyLower t) then
      match firstDotted t with
      | some v => v ++ ['+']
      | none => macVersionTail t
    else macVersionTail t

/-! ## `parse_sdk_column` -/

/-- The seven recognized platform names, in the pattern's alternation
order. -/
def sdkNames : List Str :=
  [strL ("iOS"), strL ("iPadOS"), strL ("macOS"), strL ("tvOS"),
   strL ("watchOS"), strL ("visionOS"), strL ("DriverKit")]

/-- The SDK version token `\d+(?:\.\d+)?(?:\.\d+)?`, greedy (nothing
follows it in the pattern, so no backtracking arises). -/
def parseSdkVer (s : Str) : Option (Str × Str) :=
  let d1 := s.takeWhile Char.isDigit
  if d1.isEmpty then none
  else
    let r1 := s.dropWhile Char.isDigit
    match parseNXOpt d1 r1 with
    | some (t2, r2) =>
      match parseNXOpt t2 r2 with
      | some (t3, r3) => some (t3, r3)
      | none => some (t2, r2)
    | none => some (d1, r1)

/-- After a platform name matched: `\s+` then the version token. -/
def sdkAfterName (captured : Str) (r : Str) : Option ((Str × Str) × Str) :=
  if (r.takeWhile pySpace).isEmpty then none
  else
    match parseSdkVer (r.dropWhile pySpace) with
    | some (v, rest) => some ((captured, v), rest)
    | none => none

/-- Attempt of the SDK pattern at the current position, trying the seven
alternatives in order (IGNORECASE; the captured platform text is the
source spelling). -/
def trySdkList (s : Str) : List Str → Option ((Str × Str) × Str)
  | [] => none
  | n :: ns =>
    match matchCI (pyLower n) s with
    | some r =>
      match sdkAfterName (s.take n.length) r with
      | some res => some res
      | none => trySdkList s ns
    | none => trySdkList s ns

/-- `re.findall` of the SDK pattern: leftmost, non-overlapping matches.
`fuel` bounds the scan; each step consumes at least one character, so the
initial text length is always sufficient. -/
def sdkFindallGo : Nat → Str → List (Str × Str)
  | 0, _ => []
  | _, [] => []
  | fuel + 1, c :: rest =>
    match trySdkList (c :: rest) sdkNames with
    | some (pv, after) => pv :: sdkFindallGo fuel after
    | none => sdkFindallGo fuel rest

/-- Python `dict` assignment `d[k] = v` on an insertion-ordered
association list: overwrite in place when the key exists, else append. -/
def dictInsert (d : List (Str × Str)) (k v : Str) : List (Str × Str) :=
  if d.any (fun p => p.1 == k) then
    d.map (fun p => if p.1 == k then (k, v) else p)
  else d ++ [(k, v)]

/-- `parse_sdk_column` from `xcode_releases_scraper.py` (the `sdks` dict
modeled as an insertion-ordered association list). -/
def parse_sdk_column (text : Str) : List (Str × Str) :=
  let t := clean_version_text text
  (sdkFindallGo t.length t).foldl (fun d pv => dictInsert d (pyStrip pv.1) pv.2) []

/-! ## `parse_table` (Xcode pipeline) -/

structure XcodeRec where
  xcode_version : Str
  macos_version : Str
  sdks : List (Str × Str)
deriving DecidableEq, Repr

/-- A located HTML table, modeled by the visible texts of its header cells
(`find_all("th")`) and of the cells of each data row
(`find_all("tr")[1:]`, cells via `find_all(["td", "th"])`). -/
structure HtmlTable where
  headers : List Str
  rows : List (List Str)

/-- Attempt of `\b(\d+(?:\.\d+)?(?:\.\d+)?)\b` at the current position.
When the trailing boundary fails, the engine drops the optional groups one
at a time (the two orders of filling one group match the same text, so the
candidate totals are the three lengths in decreasing order). -/
def tryXcodeAt (s : Str) : Option Str :=
  let d1 := s.takeWhile Char.isDigit
  if d1.isEmpty then none
  else
    let r1 := s.dropWhile Char.isDigit
    match parseNXOpt d1 r1 with
    | some (t2, r2) =>
      match parseNXOpt t2 r2 with
      | some (t3, r3) =>
        if boundaryAfter r3 then some t3
        else if boundaryAfter r2 then some t2
        else if boundaryAfter r1 then some d1
        else none
      | none =>
        if boundaryAfter r2 then some t2
        else if boundaryAfter r1 then some d1
        else none
    | none => if boundaryAfter r1 then some d1 else none

def xcodeSearchGo (prevWord : Bool) : Str → Option Str
  | [] => none
  | c :: rest =>
    match (if !prevWord && c.isDigit then tryXcodeAt (c :: rest) else none) with
    | some g => some g
    | none => xcodeSearchGo (isWordChar c) rest

/-- `re.search(r"\b(\d+(?:\.\d+)?(?:\.\d+)?)\b", s)` on the cleaned
Xcode-version cell text. -/
def xcodeSearch (s : Str) : Option Str := xcodeSearchGo false s

/-- The header-scanning loop of the Xcode `parse_table` (an `if`/`elif`
chain over the lowercased header texts; a later match of the same role
overwrites an earlier one). -/
def detectColsXGo :
    List Str → Nat → Option Nat → Option Nat → Option Nat →
    Option Nat × Option Nat × Option Nat
  | [], _, ix, im, isdk => (ix, im, isdk)
  | h :: hs, i, ix, im, isdk =>
    if containsSub (strL ("xcode")) h then detectColsXGo hs (i + 1) (some i) im isdk
    else if containsSub (strL ("macos")) h || containsSub (strL ("minimum")) h ||
        containsSub (strL ("os")) h then
      detectColsXGo hs (i + 1) ix (some i) isdk
    else if containsSub (strL ("sdk")) h then detectColsXGo hs (i + 1) ix im (some i)
    else detectColsXGo hs (i + 1) ix im isdk

def detectColsX (headers : List Str) : Option Nat × Option Nat × Option Nat :=
  detectColsXGo headers 0 none none none

/-- The per-row body of the Xcode `parse_table` loop.  The row is skipped
when it has at most `max` cells over all detected column indices; then the
Xcode version is extracted (dropping the row when absent), and the
optional columns degrade to empty values. -/
def parseRowX (ix : Nat) (im isdk : Option Nat) (cells : List Str) : Option XcodeRec :=
  let maxIdx := max ix (max (im.getD 0) (isdk.getD 0))
  if cells.length ≤ maxIdx then none
  else
    match xcodeSearch (clean_version_text (cells.getD ix [])) with
    | none => none
    | some v =>
      let mac :=
        match im with
        | some i => if i < cells.length then parse_macos_versions (cells.getD i []) else []
        | none => []
      let sdks :=
        match isdk with
        | some i => if i < cells.length then parse_sdk_column (cells.getD i []) else []
        | none => []
      some { xcode_version := v, macos_version := mac, sdks := sdks }

/-- `parse_table` from `xcode_releases_scraper.py`; `none` models the
`RuntimeError` raised when no Xcode column is found. -/
def parse_tableX (t : HtmlTable) : Option (List XcodeRec) :=
  let hs := t.headers.map pyLower
  match detectColsX hs with
  | (none, _, _) => none
  | (some ix, im, isdk) => some (t.rows.filterMap (parseRowX ix im isdk))

/-! ## `parse_table` (macOS pipeline) -/

/-- The header-scanning loop of the macOS `parse_table` (two independent
`if`s over each lowercased header; later matches overwrite earlier ones). -/
def detectColsMGo : List Str → Nat → Option Nat → Option Nat → Option Nat × Option Nat
  | [], _, io, isup => (io, isup)
  | h :: hs, i, io, isup =>
    let hl := pyLower h
    detectColsMGo hs (i + 1)
      (if (strL ("operating system")).isPrefixOf hl then some i else io)
      (if (strL ("supported systems")).isPrefixOf hl then some i else isup)

def detectColsM (headers : List Str) : Option Nat × Option Nat :=
  detectColsMGo headers 0 none none

/-- Splitting into whitespace-separated words, Python `str.split()`. -/
def pyWordsGo (pending : Str) : Str → List Str
  | [] => if pending.isEmpty then [] else [pending.reverse]
  | c :: rest =>
    if pySpace c then
      (if pending.isEmpty then [] else [pending.reverse]) ++ pyWordsGo [] rest
    else pyWordsGo (c :: pending) rest

/-- Python `" ".join(s.split())` as applied to the OS cell text. -/
def joinWords (s : Str) : Str := (List.intersperse [' '] (pyWordsGo [] s)).flatten

/-- A raw row of the macOS table, before normalization. -/
structure MacRawRow where
  os : Str
  supported_systems : List Str
deriving DecidableEq, Repr

/-- The per-row body of the macOS `parse_table` loop. -/
def parseRowM (io isup : Nat) (cells : List Str) : Option MacRawRow :=
  if cells.length ≤ max io isup then none
  else
    let sup_text := cells.getD isup []
    some
      { os := joinWords (cells.getD io [])
        supported_systems :=
          ((splitComma sup_text).filter (fun p => !(pyStrip p).isEmpty)).map
            (fun p => pyStripChars [','] (pyStrip p)) }

/-- `parse_table` from `macos_compat_scraper.py`; `none` models the
`RuntimeError` on unexpected headers. -/
def parse_tableM (t : HtmlTable) : Option (List MacRawRow) :=
  match detectColsM t.headers with
  | (some io, some isup) => some (t.rows.filterMap (parseRowM io isup))
  | _ => none

/-! ## Specification-side definitions -/

/-- Specification-side: the index of the last header matching `p`, in
header order. -/
def lastMatchIdx (p : Str → Bool) (l : List Str) : Option Nat :=
  (((List.range l.length).filter (fun i => p (l.getD i []))).getLast?)

/-- Specification-side: a dotted version string assembled from its numeric
components. -/
def joinDots (parts : List Str) : Str := (List.intersperse ['.'] parts).flatten

/-- Specification-side deduplication: keep the first occurrence of each
entry, in order of first appearance. -/
def firstOccurs : List Str → List Str
  | [] => []
  | a :: t => a :: firstOccurs (t.filter (fun b => b ≠ a))
termination_by l => l.length
decreasing_by
  simp only [List.length_cons]
  exact Nat.lt_succ_of_le (List.length_filter_le _ _)

/-- A remainder string that cannot extend a greedy `\d+(?:\.\d+)*` match:
it neither starts with a digit nor with a dot followed by a digit. -/
def noExtend : Str → Prop
  | [] => True
  | c :: rest =>
    c.isDigit = false ∧
      (c = '.' → match rest with | e :: _ => e.isDigit = false | [] => True)

/-- Well-formedness of a structured version token: a non-empty leading
digit run and non-empty all-digit groups. -/
def VerTok.wf (v : VerTok) : Prop :=
  v.d0 ≠ [] ∧ (∀ c ∈ v.d0, c.isDigit = true) ∧
    ∀ u ∈ v.units, u ≠ [] ∧ ∀ c ∈ u, c.isDigit = true

/-- The xcode header role: the lowercased header text contains "xcode". -/
def hdrX (h : Str) : Bool := containsSub (strL ("xcode")) h

/-- The macOS-requirement header role, guarded by the preceding `elif`
branch: not an xcode header, and containing "macos", "minimum" or "os". -/
def hdrM (h : Str) : Bool :=
  !hdrX h && (containsSub (strL ("macos")) h || containsSub (strL ("minimum")) h ||
    containsSub (strL ("os")) h)

/-- The SDK header role, guarded by both preceding `elif` branches. -/
def hdrS (h : Str) : Bool :=
  !hdrX h &&
    !(containsSub (strL ("macos")) h || containsSub (strL ("minimum")) h ||
      containsSub (strL ("os")) h) &&
    containsSub (strL ("sdk")) h

/-- The operating-system header role of the macOS pipeline. -/
def hdrOS (h : Str) : Bool := (strL ("operating system")).isPrefixOf (pyLower h)

/-- The supported-systems header role of the macOS pipeline. -/
def hdrSup (h : Str) : Bool := (strL ("supported systems")).isPrefixOf (pyLower h)

/-- One role of the header-scanning loops in isolation: walk the headers
with a running index, remembering the index of the latest match. -/
def goRole (p : Str → Bool) : List Str → Nat → Option Nat → Option Nat
  | [], _, acc => acc
  | h :: t, i, acc => goRole p t (i + 1) (if p h then some i else acc)

/-! ## Theorems -/
theorem firstMajorMinor_eq_none_of_no_digit (s : Str)
    (h : ∀ c ∈ s, c.isDigit = false) : firstMajorMinor s = none := by
  induction s with
  | nil => rfl
  | cons c rest ih =>
    have hc : c.isDigit = false := h c (List.mem_cons_self c rest)
    simp only [firstMajorMinor, hc, Bool.false_eq_true, if_false]
    exact ih fun d hd => h d (List.mem_cons_of_mem c hd)

/-- Claim C1: for every input string, `should_include_os` is true iff the
first embedded `major(.minor)?` numeric token (minor defaulting to 0 when
absent) satisfies `major ≥ 11 ∨ (major = 10 ∧ minor ≥ 8)`; any string
containing no numeric token is excluded; and the four literal examples
("10.7" false, "10.8" true, "11.0" true, "9.9" false) behave as
specified. -/
theorem should_include_os_correct :
    (∀ s : Str, should_include_os s = true ↔ claimThreshold (firstMajorMinor s)) ∧
    (∀ s : Str, (∀ c ∈ s, c.isDigit = false) → should_include_os s = false) ∧
    should_include_os (strL ("10.7")) = false ∧
    should_include_os (strL ("10.8")) = true ∧
    should_include_os (strL ("11.0")) = true ∧
    should_include_os (strL ("9.9")) = false := by
  refine ⟨?_, ?_, by decide, by decide, by decide, by decide⟩
  · intro s
    unfold should_include_os claimThreshold
    cases firstMajorMinor s with
    | none => simp
    | some p =>
      cases p with
      | mk major minor => simp [decide_eq_true_iff]
  · intro s h
    unfold should_include_os
    rw [firstMajorMinor_eq_none_of_no_digit s h]

/-! ### Generic string lemmas -/

theorem head?_mem {l : Str} {c : Char} (h : l.head? = some c) : c ∈ l := by
  cases l with
  | nil => simp at h
  | cons a t =>
    simp only [List.head?_cons, Option.some.injEq] at h
    subst h
    exact List.mem_cons_self a t

theorem getLast?_mem {l : Str} {c : Char} (h : l.getLast? = some c) : c ∈ l := by
  rw [← List.head?_reverse] at h
  exact List.mem_reverse.mp (head?_mem h)

theorem dropWhile_head_not (p : Char → Bool) (l : Str) {c : Char}
    (h : (l.dropWhile p).head? = some c) : p c = false := by
  induction l with
  | nil => simp [List.dropWhile] at h
  | cons a t ih =>
    rw [List.dropWhile_cons] at h
    split at h
    · exact ih h
    · next hp =>
      simp only [List.head?_cons, Option.some.injEq] at h
      subst h
      exact Bool.eq_false_iff.mpr hp

theorem dropWhile_eq_self_of_head (p : Char → Bool) (l : Str)
    (h : ∀ c, l.head? = some c → p c = false) : l.dropWhile p = l := by
  cases l with
  | nil => rfl
  | cons a t =>
    rw [List.dropWhile_cons, if_neg (by simp [h a rfl])]

theorem pyStrip_eq_self {l : Str}
    (h1 : ∀ c, l.head? = some c → pySpace c = false)
    (h2 : ∀ c, l.getLast? = some c → pySpace c = false) : pyStrip l = l := by
  unfold pyStrip
  rw [dropWhile_eq_self_of_head _ _ h1,
    dropWhile_eq_self_of_head _ _ (fun c hc => h2 c (by rwa [List.head?_reverse] at hc)),
    List.reverse_reverse]

theorem pyStripChars_eq_self {cs : List Char} {l : Str}
    (h1 : ∀ c, l.head? = some c → cs.contains c = false)
    (h2 : ∀ c, l.getLast? = some c → cs.contains c = false) : pyStripChars cs l = l := by
  unfold pyStripChars
  rw [dropWhile_eq_self_of_head _ _ h1,
    dropWhile_eq_self_of_head _ _ (fun c hc => h2 c (by rwa [List.head?_reverse] at hc)),
    List.reverse_reverse]

theorem suffix_getLast {l₁ l₂ : List Char} (h : l₁ <:+ l₂) (hne : l₁ ≠ []) :
    l₂.getLast? = l₁.getLast? := by
  obtain ⟨t, rfl⟩ := h
  exact List.getLast?_append_of_ne_nil t hne

theorem pyStrip_head {l : Str} {c : Char} (h : (pyStrip l).head? = some c) :
    pySpace c = false := by
  unfold pyStrip at h
  rw [List.head?_reverse] at h
  have hne : (((l.dropWhile pySpace).reverse).dropWhile pySpace) ≠ [] := by
    intro he
    rw [he] at h
    simp at h
  rw [← suffix_getLast (List.dropWhile_suffix pySpace) hne] at h
  rw [List.getLast?_reverse] at h
  exact dropWhile_head_not _ _ h

theorem pyStrip_getLast {l : Str} {c : Char} (h : (pyStrip l).getLast? = some c) :
    pySpace c = false := by
  unfold pyStrip at h
  rw [List.getLast?_reverse] at h
  exact dropWhile_head_not _ _ h

theorem pyStrip_idem (l : Str) : pyStrip (pyStrip l) = pyStrip l :=
  pyStrip_eq_self (fun _ h => pyStrip_head h) (fun _ h => pyStrip_getLast h)

/-! ### Claim C6 -/

/-- Claim C6: the macOS-requirement normalizer maps
"macOS Sonoma 14.0 or later" to "14.0+" and
"macOS Sonoma 14.5 - macOS Sequoia 15.x" to "14.5 - 15.x" (the redundant
codename before the second token is discarded), and the range rule is
applied before the "or later" rule: whenever the range pattern matches the
cleaned text, its rendering "start - end" is returned. -/
theorem parse_macos_versions_correct :
    parse_macos_versions (strL ("macOS Sonoma 14.0 or later")) = strL ("14.0+") ∧
    parse_macos_versions (strL ("macOS Sonoma 14.5 - macOS Sequoia 15.x")) =
      strL ("14.5 - 15.x") ∧
    (∀ s a b, macRangeSearch (clean_version_text s) = some (a, b) →
      parse_macos_versions s = a ++ ' ' :: '-' :: ' ' :: b) := by
  refine ⟨by decide, by decide, ?_⟩
  intro s a b h
  simp only [parse_macos_versions]
  rw [h]

theorem parse_macos_versions_correct_witness :
    parse_macos_versions (strL ("14.5 - 15.x")) =
      strL ("14.5") ++ ' ' :: '-' :: ' ' :: strL ("15.x") :=
  parse_macos_versions_correct.2.2 (strL ("14.5 - 15.x")) (strL ("14.5")) (strL ("15.x"))
    (by decide)

/-! ### Claim C5 -/

/-- Claim C5 counterexample: with detected columns xcode = 0 and sdk = 1,
a one-cell row covering the Xcode column but not the optional SDK column
is skipped (the output is empty), not emitted with empty optional
fields. -/
theorem xcode_row_skip_cex :
    parse_tableX { headers := [strL ("xcode"), strL ("sdk x")], rows := [[strL ("15.0")]] } =
      some [] ∧
    some ([] : List XcodeRec) ≠
      some [{ xcode_version := strL ("15.0"), macos_version := [], sdks := [] }] :=
  ⟨by decide, by decide⟩

/-- Claim C5 amended: a data row is emitted iff its cell count exceeds the
maximum over ALL detected column indices (required and optional alike) and
its Xcode-version cell contains a dotted-numeric token; a row with enough
cells for the Xcode column but too few for a detected optional column is
skipped. -/
theorem parseRowX_skip_iff :
    ∀ (ix : Nat) (im isdk : Option Nat) (cells : List Str),
      (parseRowX ix im isdk cells).isSome = true ↔
        (max ix (max (im.getD 0) (isdk.getD 0)) < cells.length ∧
         (xcodeSearch (clean_version_text (cells.getD ix []))).isSome = true) := by
  intro ix im isdk cells
  unfold parseRowX
  by_cases h : cells.length ≤ max ix (max (im.getD 0) (isdk.getD 0))
  · rw [if_pos h]
    simp [Nat.not_lt.mpr h]
  · rw [if_neg h]
    cases hx : xcodeSearch (clean_version_text (cells.getD ix [])) with
    | none => simp [hx, Nat.lt_of_not_le h]
    | some v => simp [hx, Nat.lt_of_not_le h]

/-! ### Claim C4 counterexample -/

/-- Claim C4 counterexample: with header texts "Xcode A" and "Xcode B"
both matching the xcode role, the chosen column index is 1 (the last
match), so the emitted version comes from the second column, not the
first as the claim states. -/
theorem header_last_match_cex :
    parse_tableX
        { headers := [strL ("Xcode A"), strL ("Xcode B")],
          rows := [[strL ("1.0"), strL ("2.0")]] } =
      some [{ xcode_version := strL ("2.0"), macos_version := [], sdks := [] }] ∧
    strL ("2.0") ≠ strL ("1.0") :=
  ⟨by decide, by decide⟩

/-! ### Claim C3 counterexample -/

/-- Claim C3 counterexample: a platform name matched case-insensitively is
stored under its source-text spelling, not the canonical one: "IOS 16.1"
yields the key "IOS", which differs from the canonical "iOS". -/
theorem sdk_casing_cex :
    parse_sdk_column (strL ("IOS 16.1")) = [(strL ("IOS"), strL ("16.1"))] ∧
    strL ("IOS") ≠ strL ("iOS") :=
  ⟨by decide, by decide⟩

/-! ### Claim C2 counterexample -/

/-- Claim C2 counterexample: the splitter does not split on the word
"and": the single fragment below is returned whole as a one-element list,
not as the claimed two-element list. -/
theorem split_and_cex :
    clean_supported_systems [strL ("iMac (2020 or later) and Mac Pro (2019 or later)")] =
      [strL ("iMac (2020 or later) and Mac Pro (2019 or later)")] ∧
    [strL ("iMac (2020 or later) and Mac Pro (2019 or later)")] ≠
      [strL ("iMac (2020 or later)"), strL ("Mac Pro (2019 or later)")] :=
  ⟨by decide, by decide⟩

/-! ### Claim C7 counterexample -/

/-- Claim C7 counterexample: an input whose trimmed form matches the bare
version grammar need not be returned unchanged: " 10.8" maps to "10.8",
which differs from the input. -/
theorem normalize_os_untrimmed_cex :
    fullVersionOrRange (pyStrip (strL (" 10.8"))) = true ∧
    normalize_os (strL (" 10.8")) = strL ("10.8") ∧
    strL ("10.8") ≠ strL (" 10.8") :=
  ⟨by decide, by decide, by decide⟩

/-! ### Claim C4: column detection -/

theorem lastMatchIdx_append (p : Str → Bool) (l : List Str) (h : Str) :
    lastMatchIdx p (l ++ [h]) = if p h then some l.length else lastMatchIdx p l := by
  unfold lastMatchIdx
  rw [List.length_append, List.length_singleton, List.range_succ, List.filter_append]
  have hn : (l ++ [h]).getD l.length [] = h := by
    simp [List.getD, List.getElem?_append_right]
  have hfc : (List.range l.length).filter (fun i => p ((l ++ [h]).getD i [])) =
      (List.range l.length).filter (fun i => p (l.getD i [])) := by
    apply List.filter_congr
    intro i hi
    have hlt : i < l.length := List.mem_range.mp hi
    have : (l ++ [h]).getD i [] = l.getD i [] := by
      simp [List.getD, List.getElem?_append_left hlt]
    rw [this]
  rw [hfc]
  by_cases hp : p h
  · rw [List.filter_singleton]
    simp only [hn, hp, cond_true]
    exact List.getLast?_concat _
  · rw [List.filter_singleton]
    simp only [hn, hp, cond_false, List.append_nil, Bool.false_eq_true, if_false]

theorem goRole_append (p : Str → Bool) (l : List Str) (h : Str) :
    ∀ (i : Nat) (acc : Option Nat),
      goRole p (l ++ [h]) i acc = if p h then some (i + l.length) else goRole p l i acc := by
  induction l with
  | nil =>
    intro i acc
    simp [goRole]
  | cons a t ih =>
    intro i acc
    simp only [List.cons_append, goRole, List.length_cons, List.append_eq]
    rw [ih]
    have : i + 1 + t.length = i + (t.length + 1) := by omega
    rw [this]

theorem goRole_eq_lastMatchIdx (p : Str → Bool) (hs : List Str) :
    ∀ (i : Nat) (acc : Option Nat),
      goRole p hs i acc =
        (match lastMatchIdx p hs with
         | some j => some (i + j)
         | none => acc) := by
  induction hs using List.reverseRecOn with
  | nil => intro i acc; rfl
  | append_singleton l h ih =>
    intro i acc
    rw [goRole_append, lastMatchIdx_append]
    by_cases hp : p h
    · simp [hp]
    · simp only [hp, Bool.false_eq_true, if_false]
      exact ih i acc

theorem detectColsXGo_decomp (hs : List Str) :
    ∀ (i : Nat) (ix im isdk : Option Nat),
      detectColsXGo hs i ix im isdk =
        (goRole hdrX hs i ix, goRole hdrM hs i im, goRole hdrS hs i isdk) := by
  induction hs with
  | nil => intro i ix im isdk; rfl
  | cons h t ih =>
    intro i ix im isdk
    by_cases h1 : containsSub (strL ("xcode")) h
    · have e1 : hdrX h = true := h1
      simp only [detectColsXGo, goRole, h1, if_true, e1, hdrM, hdrS, Bool.not_true,
        Bool.false_and, Bool.and_false, if_false]
      exact ih (i + 1) (some i) im isdk
    · have e1 : hdrX h = false := by simp [hdrX, h1]
      by_cases h2 : containsSub (strL ("macos")) h || containsSub (strL ("minimum")) h ||
          containsSub (strL ("os")) h
      · have e2 : hdrM h = true := by simp [hdrM, e1, h2]
        have e3 : hdrS h = false := by simp [hdrS, h2]
        simp only [detectColsXGo, goRole, h1, if_false, h2, if_true, e1, e2, e3,
          Bool.false_eq_true]
        exact ih (i + 1) ix (some i) isdk
      · have e2 : hdrM h = false := by
          simp only [hdrM, e1, Bool.not_false, Bool.true_and]
          exact Bool.eq_false_iff.mpr h2
        by_cases h3 : containsSub (strL ("sdk")) h
        · have e3 : hdrS h = true := by
            simp only [hdrS, e1, Bool.not_false, Bool.true_and, h3, Bool.and_true]
            simp only [Bool.not_eq_true']
            exact Bool.eq_false_iff.mpr h2
          simp only [detectColsXGo, goRole, h1, h2, h3, if_false, if_true, e1, e2, e3,
            Bool.false_eq_true]
          exact ih (i + 1) ix im (some i)
        · have e3 : hdrS h = false := by simp [hdrS, h3]
          simp only [detectColsXGo, goRole, h1, h2, h3, if_false, e1, e2, e3,
            Bool.false_eq_true]
          exact ih (i + 1) ix im isdk

theorem detectColsMGo_decomp (hs : List Str) :
    ∀ (i : Nat) (io isup : Option Nat),
      detectColsMGo hs i io isup = (goRole hdrOS hs i io, goRole hdrSup hs i isup) := by
  induction hs with
  | nil => intro i io isup; rfl
  | cons h t ih =>
    intro i io isup
    simp only [detectColsMGo, goRole, hdrOS, hdrSup]
    exact ih (i + 1) _ _

/-- Claim C4 amended: in both pipelines, when several headers match the
same column role, the chosen index is that of the LAST matching header in
header order, not the first (for the elif-guarded Xcode roles, a header
already captured by an earlier branch does not match the later roles). -/
theorem detect_cols_last_match :
    (∀ hs : List Str, detectColsX hs =
      (lastMatchIdx hdrX hs, lastMatchIdx hdrM hs, lastMatchIdx hdrS hs)) ∧
    (∀ hs : List Str, detectColsM hs =
      (lastMatchIdx hdrOS hs, lastMatchIdx hdrSup hs)) := by
  constructor
  · intro hs
    unfold detectColsX
    rw [detectColsXGo_decomp, goRole_eq_lastMatchIdx, goRole_eq_lastMatchIdx,
      goRole_eq_lastMatchIdx]
    cases lastMatchIdx hdrX hs <;> cases lastMatchIdx hdrM hs <;>
      cases lastMatchIdx hdrS hs <;> simp
  · intro hs
    unfold detectColsM
    rw [detectColsMGo_decomp, goRole_eq_lastMatchIdx, goRole_eq_lastMatchIdx]
    cases lastMatchIdx hdrOS hs <;> cases lastMatchIdx hdrSup hs <;> simp

-- C8 machinery
theorem dedupFirstGo_subset {seen l : List Str} {x : Str}
    (h : x ∈ dedupFirstGo seen l) : x ∈ l := by
  induction l generalizing seen with
  | nil => simp [dedupFirstGo] at h
  | cons s rest ih =>
    unfold dedupFirstGo at h
    split at h
    · exact List.mem_cons_of_mem _ (ih h)
    · rcases List.mem_cons.mp h with he | hm
      · exact he ▸ List.mem_cons_self s rest
      · exact List.mem_cons_of_mem _ (ih hm)

theorem dedupFirstGo_not_seen {seen l : List Str} {x : Str}
    (h : x ∈ dedupFirstGo seen l) : seen.contains x = false := by
  induction l generalizing seen with
  | nil => simp [dedupFirstGo] at h
  | cons s rest ih =>
    unfold dedupFirstGo at h
    split at h
    · exact ih h
    · next hns =>
      rcases List.mem_cons.mp h with he | hm
      · subst he
        exact Bool.eq_false_iff.mpr hns
      · have := ih hm
        simp only [List.contains_cons, Bool.or_eq_false_iff] at this
        exact this.2

theorem dedupFirstGo_nodup (l : List Str) : ∀ seen : List Str, (dedupFirstGo seen l).Nodup := by
  induction l with
  | nil => intro seen; simp [dedupFirstGo]
  | cons s rest ih =>
    intro seen
    unfold dedupFirstGo
    split
    · exact ih seen
    · refine List.nodup_cons.mpr ⟨?_, ih (s :: seen)⟩
      intro hmem
      have := dedupFirstGo_not_seen hmem
      simp [List.contains_cons] at this

theorem firstOccurs_nil : firstOccurs [] = [] := by
  unfold firstOccurs
  rfl

theorem firstOccurs_cons (a : Str) (t : List Str) :
    firstOccurs (a :: t) = a :: firstOccurs (t.filter (fun b => b ≠ a)) := by
  conv_lhs => rw [firstOccurs.eq_def]

theorem dedupFirstGo_eq_firstOccurs (l : List Str) :
    ∀ seen : List Str,
      dedupFirstGo seen l = firstOccurs (l.filter (fun b => !seen.contains b)) := by
  induction l with
  | nil => intro seen; simp [dedupFirstGo, firstOccurs_nil]
  | cons s rest ih =>
    intro seen
    unfold dedupFirstGo
    rw [List.filter_cons]
    split
    · next hs =>
      simp only [hs, Bool.not_true, cond_false]
      exact ih seen
    · next hs =>
      have hs2 : seen.contains s = false := Bool.eq_false_iff.mpr hs
      simp only [hs2, Bool.not_false, if_true, cond_true]
      rw [firstOccurs_cons]
      congr 1
      rw [ih (s :: seen), List.filter_filter]
      congr 1
      apply List.filter_congr
      intro b _
      have hbs : (b == s) = decide (b = s) := by by_cases h : b = s <;> simp [h]
      simp [List.contains_cons, Bool.not_or, decide_not, hbs, Bool.and_comm]

theorem clean_supported_systems_eq_firstOccurs (raw : List Str) :
    clean_supported_systems raw = firstOccurs (rawTokens raw) := by
  unfold clean_supported_systems
  rw [dedupFirstGo_eq_firstOccurs]
  congr 1
  apply List.filter_eq_self.mpr
  intro b _
  simp [List.contains]

/-- Claim C8: for every input list of raw fragments, the supported-systems
list contains no duplicate entries under case-sensitive exact-match
comparison and preserves the order of first occurrence (it equals the
specification-side first-occurrence filter of the raw token stream); in
particular the splitter maps ["Mac Mini, Mac Mini"] to ["Mac Mini"]. -/
theorem clean_supported_systems_nodup :
    (∀ raw : List Str, (clean_supported_systems raw).Nodup) ∧
    (∀ raw : List Str, clean_supported_systems raw = firstOccurs (rawTokens raw)) ∧
    clean_supported_systems [strL ("Mac Mini, Mac Mini")] = [strL ("Mac Mini")] := by
  refine ⟨fun raw => dedupFirstGo_nodup _ [], fun raw => clean_supported_systems_eq_firstOccurs raw,
    by decide⟩

-- C2 collapse machinery
theorem pySpace_space : pySpace ' ' = true := by decide

theorem collapseRuns2Go_nil (pending : Str) :
    collapseRuns2Go pending [] = emitRun2 pending.reverse := rfl

theorem collapseRuns2Go_cons (pending : Str) (c : Char) (rest : Str) :
    collapseRuns2Go pending (c :: rest) =
      if pySpace c then collapseRuns2Go (c :: pending) rest
      else emitRun2 pending.reverse ++ c :: collapseRuns2Go [] rest := rfl

theorem toLower_space_fix {c : Char} (h : pySpace c = true) : c.toLower = c := by
  simp only [pySpace, Bool.or_eq_true, decide_eq_true_eq] at h
  rcases h with (((((h | h) | h) | h) | h) | h) | h <;> subst h <;> decide

theorem emitRun2_ne_nil {pending : Str} (h : pending ≠ []) : emitRun2 pending ≠ [] := by
  unfold emitRun2
  split
  · simp
  · exact h

theorem collapseRuns2Go_ne_nil (l : Str) :
    ∀ pending : Str, l ≠ [] ∨ pending ≠ [] → collapseRuns2Go pending l ≠ [] := by
  induction l with
  | nil =>
    intro pending h
    rcases h with h | h
    · exact absurd rfl h
    · rw [collapseRuns2Go_nil]
      exact emitRun2_ne_nil (by simpa using h)
  | cons c rest ih =>
    intro pending _
    rw [collapseRuns2Go_cons]
    split
    · exact ih (c :: pending) (Or.inr (by simp))
    · simp

theorem collapseRuns2_cons_not_space {c : Char} (rest : Str) (h : pySpace c = false) :
    collapseRuns2 (c :: rest) = c :: collapseRuns2Go [] rest := by
  unfold collapseRuns2
  rw [collapseRuns2Go_cons, h]
  simp [emitRun2]

theorem collapseRuns2Go_getLast (l : Str) :
    ∀ (pending : Str) (c : Char), l.getLast? = some c → pySpace c = false →
      (collapseRuns2Go pending l).getLast? = some c := by
  induction l with
  | nil => intro pending c h _; simp at h
  | cons a rest ih =>
    intro pending c h hc
    rw [collapseRuns2Go_cons]
    by_cases ha : pySpace a
    · rw [if_pos ha]
      cases rest with
      | nil =>
        simp only [List.getLast?_singleton, Option.some.injEq] at h
        subst h
        rw [ha] at hc
        cases hc
      | cons b r2 =>
        exact ih (a :: pending) c (by rwa [List.getLast?_cons_cons] at h) hc
    · rw [if_neg ha]
      cases rest with
      | nil =>
        simp only [List.getLast?_singleton, Option.some.injEq] at h
        subst h
        rw [List.getLast?_append_of_ne_nil _ (by simp)]
        rw [collapseRuns2Go_nil]
        rfl
      | cons b r2 =>
        have hne : collapseRuns2Go [] (b :: r2) ≠ [] :=
          collapseRuns2Go_ne_nil _ [] (Or.inl (by simp))
        rw [List.getLast?_append_of_ne_nil _ (by simp)]
        have h2 : a :: collapseRuns2Go [] (b :: r2) = [a] ++ collapseRuns2Go [] (b :: r2) := rfl
        rw [h2, List.getLast?_append_of_ne_nil _ hne]
        rw [List.getLast?_cons_cons] at h
        exact ih [] c h hc

theorem collapseRuns2Go_no_space_down (l : Str) :
    ∀ pending : Str, (∀ c ∈ pending, pySpace c = true) →
      (∀ c ∈ collapseRuns2Go pending l, pySpace c = false) →
      pending = [] ∧ ∀ c ∈ l, pySpace c = false := by
  induction l with
  | nil =>
    intro pending hp hout
    rw [collapseRuns2Go_nil] at hout
    refine ⟨?_, by simp⟩
    cases pending with
    | nil => rfl
    | cons p ps =>
      exfalso
      unfold emitRun2 at hout
      split at hout
      · exact absurd (hout ' ' (by simp)) (by simp [pySpace_space])
      · have hmem : p ∈ (p :: ps).reverse := by simp
        exact absurd (hp p (by simp)) (by simp [hout p hmem])
  | cons a rest ih =>
    intro pending hp hout
    rw [collapseRuns2Go_cons] at hout
    by_cases ha : pySpace a
    · rw [if_pos ha] at hout
      have := ih (a :: pending) (by
        intro c hc
        rcases List.mem_cons.mp hc with he | hm
        · exact he ▸ ha
        · exact hp c hm) hout
      exact absurd this.1 (by simp)
    · rw [if_neg ha] at hout
      have ha2 : pySpace a = false := Bool.eq_false_iff.mpr ha
      have hpend : pending = [] := by
        cases pending with
        | nil => rfl
        | cons p ps =>
          exfalso
          unfold emitRun2 at hout
          split at hout
          · exact absurd (hout ' ' (by simp)) (by simp [pySpace_space])
          · have : pySpace p = false := hout p (by simp)
            exact absurd (hp p (by simp)) (by simp [this])
      have hrest := ih [] (by simp) (by
        intro c hc
        exact hout c (by simp [hc]))
      refine ⟨hpend, ?_⟩
      intro c hc
      rcases List.mem_cons.mp hc with he | hm
      · exact he ▸ ha2
      · exact hrest.2 c hm

theorem collapseRuns2_no_space_id (l : Str) (h : ∀ c ∈ l, pySpace c = false) :
    collapseRuns2 l = l := by
  unfold collapseRuns2
  induction l with
  | nil => rfl
  | cons a rest ih =>
    rw [collapseRuns2Go_cons, if_neg (by simp [h a (by simp)])]
    simp only [List.reverse_nil, emitRun2]
    rw [if_neg (by simp)]
    simp only [List.nil_append, List.cons.injEq, true_and]
    exact ih (fun c hc => h c (List.mem_cons_of_mem a hc))

theorem splitComma_no_comma (s : Str) : ∀ x ∈ splitComma s, ',' ∉ x := by
  induction s with
  | nil =>
    intro x hx
    simp only [splitComma, List.mem_singleton] at hx
    simp [hx]
  | cons c rest ih =>
    intro x hx
    unfold splitComma at hx
    split at hx
    · rcases List.mem_cons.mp hx with he | hm
      · simp [he]
      · exact ih x hm
    · next hc =>
      cases hsp : splitComma rest with
      | nil =>
        rw [hsp] at hx
        simp only [List.mem_singleton] at hx
        subst hx
        intro hmem
        rw [List.mem_singleton] at hmem
        exact hc hmem.symm
      | cons t ts =>
        rw [hsp] at hx
        rcases List.mem_cons.mp hx with he | hm
        · subst he
          intro hmem
          rcases List.mem_cons.mp hmem with h1 | h2
          · exact hc h1.symm
          · exact ih t (hsp ▸ List.mem_cons_self t ts) h2
        · exact ih x (hsp ▸ List.mem_cons_of_mem t hm)

theorem pyStrip_subset {l : Str} {x : Char} (h : x ∈ pyStrip l) : x ∈ l := by
  unfold pyStrip at h
  rw [List.mem_reverse] at h
  have h2 : x ∈ (l.dropWhile pySpace).reverse :=
    ((List.dropWhile_suffix pySpace).sublist).subset h
  rw [List.mem_reverse] at h2
  exact ((List.dropWhile_suffix pySpace).sublist).subset h2

theorem mem_chunkTokens {ch x : Str} (h : x ∈ chunkTokens ch) :
    ∃ sub : Str, sub ≠ [] ∧ (∃ c0 ∈ splitComma ch, sub = pyStrip c0) ∧
      pyLower sub ≠ strL ("and") ∧ x = cleanupToken sub := by
  unfold chunkTokens at h
  rw [List.mem_filterMap] at h
  obtain ⟨sub, hsub, hf⟩ := h
  rw [List.mem_filter] at hsub
  obtain ⟨hmap, hne⟩ := hsub
  rw [List.mem_map] at hmap
  obtain ⟨c0, hc0, hstrip⟩ := hmap
  split at hf
  · cases hf
  · split at hf
    · cases hf
    · next hand hcup =>
      refine ⟨sub, by simpa using hne, ⟨c0, hc0, hstrip.symm⟩, hand, ?_⟩
      exact (Option.some.injEq _ _ ▸ hf).symm

theorem mem_rawTokens {raw : List Str} {x : Str} (h : x ∈ rawTokens raw) :
    ∃ ch, x ∈ chunkTokens ch := by
  unfold rawTokens at h
  rw [List.mem_flatten] at h
  obtain ⟨inner, hin, hx⟩ := h
  rw [List.mem_map] at hin
  obtain ⟨item, _, heq⟩ := hin
  subst heq
  rw [List.mem_flatten] at hx
  obtain ⟨tok, htok, hx2⟩ := hx
  rw [List.mem_map] at htok
  obtain ⟨ch, _, heq2⟩ := htok
  exact ⟨ch, heq2 ▸ hx2⟩

theorem and_string_chars {t : Str} (h : pyLower t = strL ("and")) :
    ∃ c1 c2 c3, t = [c1, c2, c3] ∧ c1.toLower = 'a' ∧ c2.toLower = 'n' ∧ c3.toLower = 'd' := by
  have hlen : t.length = 3 := by
    have := congrArg List.length h
    simpa [pyLower, strL] using this
  obtain ⟨c1, c2, c3, rfl⟩ := List.length_eq_three.mp hlen
  have hand : strL ("and") = ['a', 'n', 'd'] := rfl
  rw [hand] at h
  simp only [pyLower, List.map_cons, List.map_nil, List.cons.injEq, and_true] at h
  exact ⟨c1, c2, c3, rfl, h.1, h.2.1, h.2.2⟩

theorem and_char_not_space {c d : Char} (hd : d = 'a' ∨ d = 'n' ∨ d = 'd')
    (h : c.toLower = d) : pySpace c = false ∧ c ≠ ',' := by
  constructor
  · cases hb : pySpace c
    · rfl
    · exfalso
      rw [toLower_space_fix hb] at h
      subst h
      rcases hd with h | h | h <;> subst h <;> exact absurd hb (by decide)
  · intro hcc
    subst hcc
    rcases hd with h2 | h2 | h2 <;> subst h2 <;> exact absurd h (by decide)

theorem chunkToken_not_and {ch x : Str} (hx : x ∈ chunkTokens ch) :
    pyLower (pyStrip x) ≠ strL ("and") := by
  obtain ⟨sub, hne, ⟨c0, hc0, hstrip⟩, hand, hxe⟩ := mem_chunkTokens hx
  subst hxe
  intro hcontra
  apply hand
  have hsub_head : ∀ c, sub.head? = some c → pySpace c = false := by
    intro c hc
    rw [hstrip] at hc
    exact pyStrip_head hc
  have hsub_last : ∀ c, sub.getLast? = some c → pySpace c = false := by
    intro c hc
    rw [hstrip] at hc
    exact pyStrip_getLast hc
  have hsub_nocomma : ',' ∉ sub := by
    intro hm
    rw [hstrip] at hm
    exact splitComma_no_comma ch c0 hc0 (pyStrip_subset hm)
  cases hsubc : sub with
  | nil => exact absurd hsubc hne
  | cons a rest =>
  subst hsubc
  have ha : pySpace a = false := hsub_head a rfl
  have hanc : a ≠ ',' := by
    intro he
    exact hsub_nocomma (he ▸ List.mem_cons_self a rest)
  have hy : collapseRuns2 (a :: rest) = a :: collapseRuns2Go [] rest :=
    collapseRuns2_cons_not_space rest ha
  obtain ⟨b, hb⟩ : ∃ b, (a :: rest).getLast? = some b := by
    rw [List.getLast?_eq_getLast _ (by simp)]
    exact ⟨_, rfl⟩
  have hbs : pySpace b = false := hsub_last b hb
  have hbc : b ≠ ',' := fun he => hsub_nocomma (he ▸ getLast?_mem hb)
  have hylast : (collapseRuns2 (a :: rest)).getLast? = some b :=
    collapseRuns2Go_getLast _ [] b hb hbs
  -- the strip steps are the identity on the collapsed string
  have hsc : cleanupToken (a :: rest) = collapseRuns2 (a :: rest) := by
    unfold cleanupToken
    apply pyStripChars_eq_self
    · intro c hc
      rw [hy] at hc
      simp only [List.head?_cons, Option.some.injEq] at hc
      subst hc
      have hsp : a ≠ ' ' := fun he => absurd (he ▸ ha) (by decide)
      simp only [strL]
      simp [List.contains, hsp, hanc]
    · intro c hc
      rw [hylast] at hc
      injection hc with hc
      subst hc
      have hsp : b ≠ ' ' := fun he => absurd (he ▸ hbs) (by decide)
      simp only [strL]
      simp [List.contains, hsp, hbc]
  have hst : pyStrip (collapseRuns2 (a :: rest)) = collapseRuns2 (a :: rest) := by
    apply pyStrip_eq_self
    · intro c hc
      rw [hy] at hc
      simp only [List.head?_cons, Option.some.injEq] at hc
      subst hc
      exact ha
    · intro c hc
      rw [hylast] at hc
      injection hc with hc
      subst hc
      exact hbs
  rw [hsc, hst] at hcontra
  -- the collapsed string is the and-token: it has no whitespace
  obtain ⟨c1, c2, c3, hy3, h1, h2, h3⟩ := and_string_chars hcontra
  have hnosp : ∀ c ∈ collapseRuns2 (a :: rest), pySpace c = false := by
    intro c hcm
    rw [hy3] at hcm
    rcases List.mem_cons.mp hcm with he | hcm
    · exact he ▸ (and_char_not_space (Or.inl rfl) h1).1
    rcases List.mem_cons.mp hcm with he | hcm
    · exact he ▸ (and_char_not_space (Or.inr (Or.inl rfl)) h2).1
    rcases List.mem_cons.mp hcm with he | hcm
    · exact he ▸ (and_char_not_space (Or.inr (Or.inr rfl)) h3).1
    · cases hcm
  have hdown := collapseRuns2Go_no_space_down (a :: rest) [] (by simp) hnosp
  have hid : collapseRuns2 (a :: rest) = a :: rest :=
    collapseRuns2_no_space_id _ hdown.2
  rw [← hid]
  exact hcontra

/-- Claim C2 amended: the splitter discards exactly the junk tokens that,
trimmed and lower-cased, equal "and": no output token, trimmed and
lower-cased, equals "and"; but fragments are split only on commas and
category labels, never on the word "and", so the single example fragment
comes back whole as a one-element list. -/
theorem clean_supported_systems_and_filter :
    clean_supported_systems [strL ("iMac (2020 or later) and Mac Pro (2019 or later)")] =
      [strL ("iMac (2020 or later) and Mac Pro (2019 or later)")] ∧
    (∀ (raw : List Str) (x : Str), x ∈ clean_supported_systems raw →
      pyLower (pyStrip x) ≠ strL ("and")) := by
  refine ⟨by decide, ?_⟩
  intro raw x hx
  obtain ⟨ch, hch⟩ := mem_rawTokens (dedupFirstGo_subset hx)
  exact chunkToken_not_and hch

theorem clean_supported_systems_and_filter_witness :
    pyLower (pyStrip (strL ("Mac Mini"))) ≠ strL ("and") :=
  clean_supported_systems_and_filter.2 [strL ("Mac Mini")] (strL ("Mac Mini")) (by decide)

-- C3 machinery
theorem mem_dictInsert {d : List (Str × Str)} {k v : Str} {q : Str × Str}
    (hq : q ∈ dictInsert d k v) : q ∈ d ∨ q.1 = k := by
  unfold dictInsert at hq
  split at hq
  · rw [List.mem_map] at hq
    obtain ⟨p, hp, he⟩ := hq
    by_cases hk : p.1 == k
    · right
      rw [← he]
      simp [hk]
    · left
      rw [← he]
      simp only [hk, Bool.false_eq_true, if_false]
      exact hp
  · rcases List.mem_append.mp hq with h | h
    · left
      exact h
    · right
      rw [List.mem_singleton] at h
      rw [h]

theorem mem_sdk_foldl (l : List (Str × Str)) :
    ∀ (d0 : List (Str × Str)) (q : Str × Str),
      q ∈ l.foldl (fun d pv => dictInsert d (pyStrip pv.1) pv.2) d0 →
      q ∈ d0 ∨ ∃ pv ∈ l, q.1 = pyStrip pv.1 := by
  induction l with
  | nil =>
    intro d0 q hq
    left
    exact hq
  | cons pv t ih =>
    intro d0 q hq
    rcases ih _ q hq with h | ⟨pw, hw, he⟩
    · rcases mem_dictInsert h with h2 | h2
      · left
        exact h2
      · right
        exact ⟨pv, List.mem_cons_self pv t, h2⟩
    · right
      exact ⟨pw, List.mem_cons_of_mem _ hw, he⟩

theorem matchCI_lower {pat s r : Str} (h : matchCI pat s = some r) :
    pyLower (s.take pat.length) = pat := by
  unfold matchCI at h
  split at h
  · assumption
  · cases h

theorem sdkAfterName_key {cap r : Str} {res : (Str × Str) × Str}
    (h : sdkAfterName cap r = some res) : res.1.1 = cap := by
  unfold sdkAfterName at h
  split at h
  · cases h
  · split at h
    · injection h with h
      rw [← h]
    · cases h

theorem trySdkList_key {s : Str} {res : (Str × Str) × Str} :
    ∀ ns : List Str, trySdkList s ns = some res →
      ∃ n ∈ ns, pyLower res.1.1 = pyLower n := by
  intro ns
  induction ns with
  | nil => intro h; cases h
  | cons n t ih =>
    intro h
    unfold trySdkList at h
    split at h
    · next r hm =>
      split at h
      · next res2 ha =>
        injection h with h
        subst h
        refine ⟨n, List.mem_cons_self n t, ?_⟩
        rw [sdkAfterName_key ha]
        have := matchCI_lower hm
        have hlen : (pyLower n).length = n.length := by simp [pyLower]
        rw [hlen] at this
        exact this
      · obtain ⟨n2, hn2, he⟩ := ih h
        exact ⟨n2, List.mem_cons_of_mem _ hn2, he⟩
    · obtain ⟨n2, hn2, he⟩ := ih h
      exact ⟨n2, List.mem_cons_of_mem _ hn2, he⟩

theorem sdkFindall_key :
    ∀ (fuel : Nat) (s : Str) (pv : Str × Str), pv ∈ sdkFindallGo fuel s →
      ∃ n ∈ sdkNames, pyLower pv.1 = pyLower n := by
  intro fuel
  induction fuel with
  | zero => intro s pv h; simp [sdkFindallGo] at h
  | succ fuel ih =>
    intro s pv h
    cases s with
    | nil => simp [sdkFindallGo] at h
    | cons c rest =>
      unfold sdkFindallGo at h
      split at h
      · next res ht =>
        rcases List.mem_cons.mp h with he | hm
        · subst he
          exact trySdkList_key sdkNames ht
        · exact ih _ _ hm
      · exact ih _ _ h

theorem sdkNames_no_space : ∀ n ∈ sdkNames, ∀ d ∈ pyLower n, pySpace d = false := by
  decide

theorem key_no_space {x n : Str} (hn : n ∈ sdkNames) (h : pyLower x = pyLower n) :
    ∀ c ∈ x, pySpace c = false := by
  intro c hc
  cases hb : pySpace c
  · rfl
  · exfalso
    have hmem : c.toLower ∈ pyLower n := by
      rw [← h]
      exact List.mem_map_of_mem Char.toLower hc
    rw [toLower_space_fix hb] at hmem
    have := sdkNames_no_space n hn c hmem
    rw [hb] at this
    cases this

/-- Claim C3 amended: the seven platform names are matched
case-insensitively, and every key stored in the mapping is the SOURCE-TEXT
spelling of the matched occurrence, which lower-cases to one of the seven
recognized names (it equals the canonical spelling only up to case); the
concrete five-entry example, whose source casing is canonical, holds as
stated, including DriverKit 22.1. -/
theorem parse_sdk_column_keys :
    (∀ (s : Str) (kv : Str × Str), kv ∈ parse_sdk_column s →
      pyLower kv.1 ∈ sdkNames.map pyLower) ∧
    parse_sdk_column (strL ("iOS 16.1 tvOS 16.1 watchOS 9.1 macOS 13 DriverKit 22.1")) =
      [(strL ("iOS"), strL ("16.1")), (strL ("tvOS"), strL ("16.1")),
       (strL ("watchOS"), strL ("9.1")), (strL ("macOS"), strL ("13")),
       (strL ("DriverKit"), strL ("22.1"))] := by
  refine ⟨?_, by decide⟩
  intro s kv hkv
  unfold parse_sdk_column at hkv
  rcases mem_sdk_foldl _ _ _ hkv with h | ⟨pv, hpv, he⟩
  · cases h
  · obtain ⟨n, hn, hlow⟩ := sdkFindall_key _ _ _ hpv
    have hid : pyStrip pv.1 = pv.1 := by
      apply pyStrip_eq_self
      · intro c hc
        exact key_no_space hn hlow c (head?_mem hc)
      · intro c hc
        exact key_no_space hn hlow c (getLast?_mem hc)
    rw [he, hid, hlow]
    exact List.mem_map_of_mem pyLower hn

theorem parse_sdk_column_keys_witness :
    pyLower (strL ("IOS")) ∈ sdkNames.map pyLower :=
  parse_sdk_column_keys.1 (strL ("IOS 16.1")) (strL ("IOS"), strL ("16.1")) (by decide)

-- C9 machinery
theorem joinDots_one (a : Str) : joinDots [a] = a := by
  simp [joinDots]

theorem joinDots_two (a b : Str) : joinDots [a, b] = a ++ '.' :: b := by
  simp [joinDots, List.intersperse]

theorem joinDots_three (a b c : Str) :
    joinDots [a, b, c] = (a ++ '.' :: b) ++ '.' :: c := by
  simp [joinDots, List.intersperse]

theorem parseNXOpt_decomp {core rest tok rest2 : Str}
    (h : parseNXOpt core rest = some (tok, rest2)) :
    ∃ d3 : Str, tok = core ++ '.' :: d3 ∧ d3 ≠ [] ∧ ∀ c ∈ d3, c.isDigit = true := by
  unfold parseNXOpt at h
  dsimp only at h
  split at h
  · next r2 =>
    split at h
    · cases h
    · next hne =>
      injection h with h
      rw [Prod.mk.injEq] at h
      refine ⟨r2.takeWhile Char.isDigit, h.1.symm, by simpa using hne,
        fun c hc => List.mem_takeWhile_imp hc⟩
  · cases h

theorem tryXcodeAt_parts {s v : Str} (h : tryXcodeAt s = some v) :
    v ≠ [] ∧ ∃ parts : List Str, 1 ≤ parts.length ∧ parts.length ≤ 3 ∧
      (∀ p ∈ parts, p ≠ [] ∧ ∀ c ∈ p, c.isDigit = true) ∧ v = joinDots parts := by
  unfold tryXcodeAt at h
  dsimp only at h
  split at h
  · cases h
  · next hd1 =>
    have hd1ne : s.takeWhile Char.isDigit ≠ [] := by simpa using hd1
    have hd1dig : ∀ c ∈ s.takeWhile Char.isDigit, c.isDigit = true :=
      fun c hc => List.mem_takeWhile_imp hc
    have base : s.takeWhile Char.isDigit ≠ [] ∧
        ∃ parts : List Str, 1 ≤ parts.length ∧ parts.length ≤ 3 ∧
          (∀ p ∈ parts, p ≠ [] ∧ ∀ c ∈ p, c.isDigit = true) ∧
          s.takeWhile Char.isDigit = joinDots parts :=
      ⟨hd1ne, [s.takeWhile Char.isDigit], by simp, by simp,
        (by
          intro p hp
          rw [List.mem_singleton] at hp
          exact hp ▸ ⟨hd1ne, hd1dig⟩),
        (joinDots_one _).symm⟩
    split at h
    · next t2 r2 h1 =>
      obtain ⟨u1, ht2, hu1ne, hu1dig⟩ := parseNXOpt_decomp h1
      have two : t2 ≠ [] ∧
          ∃ parts : List Str, 1 ≤ parts.length ∧ parts.length ≤ 3 ∧
            (∀ p ∈ parts, p ≠ [] ∧ ∀ c ∈ p, c.isDigit = true) ∧ t2 = joinDots parts := by
        refine ⟨by simp [ht2, hd1ne], [s.takeWhile Char.isDigit, u1], by simp, by simp, ?_, ?_⟩
        · intro p hp
          rcases List.mem_cons.mp hp with he | hp2
          · exact he ▸ ⟨hd1ne, hd1dig⟩
          · rw [List.mem_singleton] at hp2
            exact hp2 ▸ ⟨hu1ne, hu1dig⟩
        · rw [joinDots_two, ht2]
      split at h
      · next t3 r3 h2 =>
        obtain ⟨u2, ht3, hu2ne, hu2dig⟩ := parseNXOpt_decomp h2
        split at h
        · injection h with h
          subst h
          refine ⟨by simp [ht3, ht2, hd1ne], [s.takeWhile Char.isDigit, u1, u2],
            by simp, by simp, ?_, ?_⟩
          · intro p hp
            rcases List.mem_cons.mp hp with he | hp2
            · exact he ▸ ⟨hd1ne, hd1dig⟩
            rcases List.mem_cons.mp hp2 with he | hp3
            · exact he ▸ ⟨hu1ne, hu1dig⟩
            · rw [List.mem_singleton] at hp3
              exact hp3 ▸ ⟨hu2ne, hu2dig⟩
          · rw [joinDots_three, ht3, ht2]
        · split at h
          · injection h with h
            subst h
            exact two
          · split at h
            · injection h with h
              subst h
              exact base
            · cases h
      · split at h
        · injection h with h
          subst h
          exact two
        · split at h
          · injection h with h
            subst h
            exact base
          · cases h
    · split at h
      · injection h with h
        subst h
        exact base
      · cases h

theorem xcodeSearch_parts {s v : Str} (h : xcodeSearch s = some v) :
    v ≠ [] ∧ ∃ parts : List Str, 1 ≤ parts.length ∧ parts.length ≤ 3 ∧
      (∀ p ∈ parts, p ≠ [] ∧ ∀ c ∈ p, c.isDigit = true) ∧ v = joinDots parts := by
  unfold xcodeSearch at h
  generalize hpw : false = pw at h
  clear hpw
  induction s generalizing pw with
  | nil => cases h
  | cons c rest ih =>
    unfold xcodeSearchGo at h
    split at h
    · next g hg =>
      injection h with h
      subst h
      split at hg
      · exact tryXcodeAt_parts hg
      · cases hg
    · exact ih _ h

theorem parseRowX_version {ix : Nat} {im isdk : Option Nat} {cells : List Str} {r : XcodeRec}
    (h : parseRowX ix im isdk cells = some r) :
    xcodeSearch (clean_version_text (cells.getD ix [])) = some r.xcode_version := by
  unfold parseRowX at h
  dsimp only at h
  split at h
  · cases h
  · split at h
    · cases h
    · next v hv =>
      injection h with h
      subst h
      exact hv

theorem parseRowX_none {ix : Nat} {im isdk : Option Nat} {bad : List Str}
    (h : xcodeSearch (clean_version_text (bad.getD ix [])) = none) :
    parseRowX ix im isdk bad = none := by
  unfold parseRowX
  dsimp only
  split
  · rfl
  · rw [h]

/-- Claim C9: every record emitted by the Xcode row extractor carries a
non-empty bare dotted-numeric version of one to three numeric components,
and a row whose Xcode-version cell contains no such token is dropped from
the output entirely while the remaining rows are still processed. -/
theorem xcode_version_wellformed :
    (∀ (t : HtmlTable) (recs : List XcodeRec), parse_tableX t = some recs →
      ∀ r ∈ recs, r.xcode_version ≠ [] ∧
        ∃ parts : List Str, 1 ≤ parts.length ∧ parts.length ≤ 3 ∧
          (∀ p ∈ parts, p ≠ [] ∧ ∀ c ∈ p, c.isDigit = true) ∧
          r.xcode_version = joinDots parts) ∧
    (∀ (hs : List Str) (pre post : List (List Str)) (bad : List Str)
        (ix : Nat) (im isdk : Option Nat),
      detectColsX (hs.map pyLower) = (some ix, im, isdk) →
      xcodeSearch (clean_version_text (bad.getD ix [])) = none →
      parse_tableX { headers := hs, rows := pre ++ bad :: post } =
        parse_tableX { headers := hs, rows := pre ++ post }) := by
  constructor
  · intro t recs hrec r hr
    unfold parse_tableX at hrec
    dsimp only at hrec
    split at hrec
    · cases hrec
    · next ix im isdk hdet =>
      injection hrec with hrec
      subst hrec
      rw [List.mem_filterMap] at hr
      obtain ⟨cells, _, hrow⟩ := hr
      exact xcodeSearch_parts (parseRowX_version hrow)
  · intro hs pre post bad ix im isdk hdet hnone
    unfold parse_tableX
    dsimp only
    rw [hdet]
    dsimp only
    rw [List.filterMap_append, List.filterMap_append, List.filterMap_cons,
      parseRowX_none hnone]

theorem xcode_version_wellformed_witness :
    parse_tableX { headers := [strL ("xcode")], rows := [[strL ("n/a")], [strL ("15.0")]] } =
      parse_tableX { headers := [strL ("xcode")], rows := [[strL ("15.0")]] } :=
  xcode_version_wellformed.2 [strL ("xcode")] [] [[strL ("15.0")]] [strL ("n/a")] 0 none none
    (by decide) (by decide)

theorem should_include_os_correct_witness :
    should_include_os (strL ("abc")) = false :=
  should_include_os_correct.2.1 (strL ("abc")) (by decide)

-- C7/C10 machinery: scanVer structure
theorem scanVer_cons_digit {c : Char} (rest : Str) (h : c.isDigit = true) :
    scanVer (c :: rest) =
      (c :: (scanVer rest).1, (scanVer rest).2.1, (scanVer rest).2.2) := by
  cases rest with
  | nil => simp [scanVer, h]
  | cons d rest2 =>
    rcases hE : scanVer (d :: rest2) with ⟨u, us, r⟩
    simp [scanVer, h, hE]

theorem scanVer_cons_dot {e : Char} (rest2 : Str) (he : e.isDigit = true) :
    scanVer ('.' :: e :: rest2) =
      ([], (e :: (scanVer rest2).1) :: (scanVer rest2).2.1, (scanVer rest2).2.2) := by
  rcases hE : scanVer rest2 with ⟨u, us, r⟩
  have h1 : ('.').isDigit = false := by decide
  simp [scanVer, h1, he, hE]

theorem scanVer_decomp (s : Str) :
    s = (scanVer s).1 ++ unitsStr (scanVer s).2.1 ++ (scanVer s).2.2 := by
  induction s using scanVer.induct with
  | case1 => rfl
  | case2 c rest hc u us r hE ih =>
    rw [scanVer_cons_digit rest hc]
    simpa using congrArg (c :: ·) ih
  | case3 e rest2 he u us r hE hdot ih =>
    rw [scanVer_cons_dot rest2 he]
    simp only [unitsStr, List.map_cons, List.flatten_cons, List.nil_append]
    have hih : rest2 = (scanVer rest2).1 ++ unitsStr (scanVer rest2).2.1 ++ (scanVer rest2).2.2 :=
      ih
    conv_lhs => rw [hih]
    simp [unitsStr]
  | case4 e rest2 he hdot =>
    have h1 : ('.').isDigit = false := by decide
    have he2 : e.isDigit = false := by simpa using he
    simp [scanVer, h1, he2, unitsStr]
  | case5 hdot =>
    have h1 : ('.').isDigit = false := by decide
    simp [scanVer, h1, unitsStr]
  | case6 c rest hc hdot =>
    have hc2 : c.isDigit = false := by simpa using hc
    cases rest with
    | nil => simp [scanVer, hc2, hdot, unitsStr]
    | cons d r2 => simp [scanVer, hc2, hdot, unitsStr]

theorem scanVer_digits (s : Str) :
    (∀ c ∈ (scanVer s).1, c.isDigit = true) ∧
      (∀ u ∈ (scanVer s).2.1, u ≠ [] ∧ ∀ c ∈ u, c.isDigit = true) := by
  induction s using scanVer.induct with
  | case1 => exact ⟨by simp [scanVer], by simp [scanVer]⟩
  | case2 c rest hc u us r hE ih =>
    rw [scanVer_cons_digit rest hc]
    refine ⟨?_, ih.2⟩
    intro x hx
    rcases List.mem_cons.mp hx with hx | hx
    · exact hx ▸ hc
    · exact ih.1 x hx
  | case3 e rest2 he u us r hE hdot ih =>
    rw [scanVer_cons_dot rest2 he]
    refine ⟨by simp, ?_⟩
    intro x hx
    rcases List.mem_cons.mp hx with hx | hx
    · subst hx
      refine ⟨by simp, ?_⟩
      intro y hy
      rcases List.mem_cons.mp hy with hy | hy
      · exact hy ▸ he
      · exact ih.1 y hy
    · exact ih.2 x hx
  | case4 e rest2 he hdot =>
    have h1 : ('.').isDigit = false := by decide
    have he2 : e.isDigit = false := by simpa using he
    simp [scanVer, h1, he2]
  | case5 hdot =>
    have h1 : ('.').isDigit = false := by decide
    simp [scanVer, h1]
  | case6 c rest hc hdot =>
    have hc2 : c.isDigit = false := by simpa using hc
    cases rest with
    | nil => simp [scanVer, hc2, hdot]
    | cons d r2 => simp [scanVer, hc2, hdot]

theorem pySpace_not_digit {c : Char} (h : pySpace c = true) : c.isDigit = false := by
  simp only [pySpace, Bool.or_eq_true, decide_eq_true_eq] at h
  rcases h with (((((h | h) | h) | h) | h) | h) | h <;> subst h <;> decide

theorem pySpace_ne_dot {c : Char} (h : pySpace c = true) : c ≠ '.' := by
  simp only [pySpace, Bool.or_eq_true, decide_eq_true_eq] at h
  rcases h with (((((h | h) | h) | h) | h) | h) | h <;> subst h <;> decide

theorem digit_not_space {c : Char} (h : c.isDigit = true) : pySpace c = false := by
  cases hb : pySpace c
  · rfl
  · rw [pySpace_not_digit hb] at h
    cases h

theorem dash_not_digit {c : Char} (h : isDashChar c = true) : c.isDigit = false := by
  simp only [isDashChar, Bool.or_eq_true, decide_eq_true_eq] at h
  rcases h with (h | h) | h <;> subst h <;> decide

theorem dash_ne_dot {c : Char} (h : isDashChar c = true) : c ≠ '.' := by
  simp only [isDashChar, Bool.or_eq_true, decide_eq_true_eq] at h
  rcases h with (h | h) | h <;> subst h <;> decide

theorem dash_not_space {c : Char} (h : isDashChar c = true) : pySpace c = false := by
  simp only [isDashChar, Bool.or_eq_true, decide_eq_true_eq] at h
  rcases h with (h | h) | h <;> subst h <;> decide

theorem scanVer_noExtend {r : Str} (h : noExtend r) : scanVer r = ([], [], r) := by
  cases r with
  | nil => rfl
  | cons c rest =>
    obtain ⟨hc, hdot⟩ := h
    by_cases hcd : c = '.'
    · subst hcd
      cases rest with
      | nil => simp [scanVer]
      | cons e r2 =>
        have he : e.isDigit = false := hdot rfl
        simp [scanVer, hc, he]
    · cases rest with
      | nil => simp [scanVer, hc, hcd]
      | cons e r2 => simp [scanVer, hc, hcd]

theorem scanVer_append_digits (d0 : Str) (t : Str) (hd : ∀ c ∈ d0, c.isDigit = true) :
    scanVer (d0 ++ t) = (d0 ++ (scanVer t).1, (scanVer t).2.1, (scanVer t).2.2) := by
  induction d0 with
  | nil => simp
  | cons c cs ih =>
    rw [List.cons_append, scanVer_cons_digit _ (hd c (List.mem_cons_self c cs))]
    rw [ih (fun x hx => hd x (List.mem_cons_of_mem c hx))]
    simp

theorem scanVer_units_append (us : List Str) (r : Str)
    (hus : ∀ u ∈ us, u ≠ [] ∧ ∀ c ∈ u, c.isDigit = true) (hr : noExtend r) :
    scanVer (unitsStr us ++ r) = ([], us, r) := by
  induction us with
  | nil =>
    simpa [unitsStr] using scanVer_noExtend hr
  | cons u us2 ih =>
    obtain ⟨hne, hdig⟩ := hus u (List.mem_cons_self u us2)
    cases hu : u with
    | nil => exact absurd hu hne
    | cons e u2 =>
    subst hu
    have hshape : unitsStr ((e :: u2) :: us2) ++ r = '.' :: e :: (u2 ++ (unitsStr us2 ++ r)) := by
      simp [unitsStr]
    rw [hshape, scanVer_cons_dot _ (hdig e (List.mem_cons_self e u2))]
    rw [scanVer_append_digits u2 _ (fun x hx => hdig x (List.mem_cons_of_mem e hx))]
    rw [ih (fun v hv => hus v (List.mem_cons_of_mem _ hv))]
    simp

theorem parseVer_some_decomp {s : Str} {v : VerTok} {r : Str}
    (h : parseVer s = some (v, r)) : s = renderVer v ++ r ∧ VerTok.wf v := by
  unfold parseVer at h
  split at h
  · next c rest =>
    split at h
    · next hc =>
      rcases hE : scanVer (c :: rest) with ⟨u, us, rr⟩
      rw [hE] at h
      dsimp only at h
      injection h with h
      rw [Prod.mk.injEq] at h
      obtain ⟨hv, hr⟩ := h
      subst hv
      subst hr
      have hdec := scanVer_decomp (c :: rest)
      rw [hE] at hdec
      have hdig := scanVer_digits (c :: rest)
      rw [hE] at hdig
      have hd0ne : u ≠ [] := by
        have := scanVer_cons_digit rest hc
        rw [hE] at this
        intro he
        rw [he] at this
        exact List.cons_ne_nil _ _ (congrArg Prod.fst this).symm
      constructor
      · simpa [renderVer] using hdec
      · exact ⟨hd0ne, hdig.1, hdig.2⟩
    · cases h
  · cases h

theorem parseVer_render {v : VerTok} (hv : VerTok.wf v) {r : Str} (hr : noExtend r) :
    parseVer (renderVer v ++ r) = some (v, r) := by
  obtain ⟨hne, hd0, hus⟩ := hv
  cases hd : v.d0 with
  | nil => exact absurd hd hne
  | cons c cs =>
  have hc : c.isDigit = true := hd0 c (by rw [hd]; exact List.mem_cons_self c cs)
  have hshape : renderVer v ++ r = c :: (cs ++ (unitsStr v.units ++ r)) := by
    simp [renderVer, hd]
  have hscan : scanVer (renderVer v ++ r) = (v.d0, v.units, r) := by
    rw [hshape]
    have h1 : scanVer ((c :: cs) ++ (unitsStr v.units ++ r)) =
        ((c :: cs) ++ (scanVer (unitsStr v.units ++ r)).1,
         (scanVer (unitsStr v.units ++ r)).2.1, (scanVer (unitsStr v.units ++ r)).2.2) :=
      scanVer_append_digits (c :: cs) _ (by rw [← hd]; exact hd0)
    rw [List.cons_append] at h1
    rw [h1, scanVer_units_append v.units r hus hr]
    simp [hd]
  unfold parseVer
  rw [hshape]
  dsimp only
  rw [if_pos hc, ← hshape, hscan]

theorem renderVer_head {v : VerTok} (hv : VerTok.wf v) :
    ∃ c, (renderVer v).head? = some c ∧ c.isDigit = true := by
  obtain ⟨hne, hd0, _⟩ := hv
  cases hd : v.d0 with
  | nil => exact absurd hd hne
  | cons c cs =>
    exact ⟨c, by simp [renderVer, hd], hd0 c (by rw [hd]; exact List.mem_cons_self c cs)⟩

theorem renderVer_ne_nil {v : VerTok} (hv : VerTok.wf v) : renderVer v ≠ [] := by
  obtain ⟨c, hc, _⟩ := renderVer_head hv
  intro he
  rw [he] at hc
  cases hc

theorem renderVer_getLast {v : VerTok} (hv : VerTok.wf v) :
    ∃ c, (renderVer v).getLast? = some c ∧ c.isDigit = true := by
  obtain ⟨hne, hd0, hus⟩ := hv
  rcases List.eq_nil_or_concat v.units with hu | ⟨us2, u, hu⟩
  · have hr : renderVer v = v.d0 := by simp [renderVer, hu, unitsStr]
    refine ⟨v.d0.getLast hne, ?_, hd0 _ (List.getLast_mem hne)⟩
    rw [hr]
    exact List.getLast?_eq_getLast _ hne
  · obtain ⟨hune, hudig⟩ := hus u (by rw [hu]; simp)
    have hr : renderVer v = (v.d0 ++ unitsStr us2) ++ ('.' :: u) := by
      simp [renderVer, hu, unitsStr]
    refine ⟨u.getLast hune, ?_, hudig _ (List.getLast_mem hune)⟩
    rw [hr, List.getLast?_append_of_ne_nil _ (by simp)]
    have : ('.' :: u) = ['.'] ++ u := rfl
    rw [this, List.getLast?_append_of_ne_nil _ hune]
    exact List.getLast?_eq_getLast _ hune

theorem noExtend_nil : noExtend [] := trivial

theorem noExtend_space_dash {ws : Str} {d : Char} (rest0 : Str)
    (hws : ∀ c ∈ ws, pySpace c = true) (hd : isDashChar d = true) :
    noExtend (ws ++ d :: rest0) := by
  cases ws with
  | nil =>
    exact ⟨dash_not_digit hd, fun he => absurd he (dash_ne_dot hd)⟩
  | cons w ws2 =>
    have hw : pySpace w = true := hws w (List.mem_cons_self w ws2)
    exact ⟨pySpace_not_digit hw, fun he => absurd he (pySpace_ne_dot hw)⟩

theorem dropWhile_space_append (ws t : Str) (hws : ∀ c ∈ ws, pySpace c = true)
    (ht : ∀ c, t.head? = some c → pySpace c = false) :
    (ws ++ t).dropWhile pySpace = t := by
  induction ws with
  | nil => exact dropWhile_eq_self_of_head _ _ ht
  | cons w ws2 ih =>
    rw [List.cons_append, List.dropWhile_cons, if_pos (hws w (List.mem_cons_self w ws2))]
    exact ih (fun c hc => hws c (List.mem_cons_of_mem w hc))

theorem fullVR_render {v : VerTok} (hv : VerTok.wf v) :
    fullVersionOrRange (renderVer v) = true := by
  have hp := parseVer_render hv (r := []) noExtend_nil
  rw [List.append_nil] at hp
  unfold fullVersionOrRange
  rw [hp]

theorem fullVR_range {v1 v2 : VerTok} {ws1 ws2 : Str} {d : Char}
    (h1 : VerTok.wf v1) (h2 : VerTok.wf v2)
    (hw1 : ∀ c ∈ ws1, pySpace c = true) (hw2 : ∀ c ∈ ws2, pySpace c = true)
    (hd : isDashChar d = true) :
    fullVersionOrRange (renderVer v1 ++ ws1 ++ d :: (ws2 ++ renderVer v2)) = true := by
  have hne : noExtend (ws1 ++ d :: (ws2 ++ renderVer v2)) :=
    noExtend_space_dash _ hw1 hd
  have hp := parseVer_render h1 hne
  have hassoc : renderVer v1 ++ ws1 ++ d :: (ws2 ++ renderVer v2) =
      renderVer v1 ++ (ws1 ++ d :: (ws2 ++ renderVer v2)) := by
    simp [List.append_assoc]
  rw [hassoc]
  unfold fullVersionOrRange
  rw [hp]
  have hv2p := parseVer_render h2 (r := []) noExtend_nil
  rw [List.append_nil] at hv2p
  obtain ⟨c2, hc2, hc2d⟩ := renderVer_head h2
  have hdw1 : (ws1 ++ d :: (ws2 ++ renderVer v2)).dropWhile pySpace =
      d :: (ws2 ++ renderVer v2) := by
    apply dropWhile_space_append _ _ hw1
    intro c hc
    simp only [List.head?_cons, Option.some.injEq] at hc
    subst hc
    exact dash_not_space hd
  have hdw2 : (ws2 ++ renderVer v2).dropWhile pySpace = renderVer v2 := by
    apply dropWhile_space_append _ _ hw2
    intro c hc
    rw [hc2] at hc
    injection hc with hc
    subst hc
    exact digit_not_space hc2d
  cases hws1c : ws1 with
  | nil =>
    dsimp only
    rw [hws1c] at hdw1
    simp only [List.nil_append] at hdw1 ⊢
    rw [hdw1]
    dsimp only
    rw [if_pos hd, hdw2, hv2p]
    rfl
  | cons w ws1t =>
    dsimp only
    rw [hws1c] at hdw1
    simp only [List.cons_append] at hdw1 ⊢
    rw [hdw1]
    dsimp only
    rw [if_pos hd, hdw2, hv2p]
    rfl

theorem wf_dropLast {v : VerTok} (hv : VerTok.wf v) :
    VerTok.wf { d0 := v.d0, units := v.units.dropLast } := by
  obtain ⟨hne, hd0, hus⟩ := hv
  exact ⟨hne, hd0, fun u hu => hus u ((List.dropLast_sublist _).subset hu)⟩

theorem trySingleAt_inv {s g : Str} (h : trySingleAt s = some g) :
    ∃ v : VerTok, VerTok.wf v ∧ g = renderVer v := by
  unfold trySingleAt at h
  split at h
  · cases h
  · next v rest hp =>
    obtain ⟨_, hwf⟩ := parseVer_some_decomp hp
    split at h
    · injection h with h
      exact ⟨v, hwf, h.symm⟩
    · split at h
      · cases h
      · injection h with h
        exact ⟨_, wf_dropLast hwf, h.symm⟩

theorem searchSingle_inv {s g : Str} (h : searchSingle s = some g) :
    ∃ v : VerTok, VerTok.wf v ∧ g = renderVer v := by
  unfold searchSingle at h
  generalize false = pw at h
  induction s generalizing pw with
  | nil => cases h
  | cons c rest ih =>
    unfold searchSingleGo at h
    split at h
    · next g2 hg =>
      injection h with h
      subst h
      split at hg
      · exact trySingleAt_inv hg
      · cases hg
    · exact ih _ h

theorem tryRangeAt_inv {s g : Str} (h : tryRangeAt s = some g) :
    ∃ (v1 v2 : VerTok) (ws1 ws2 : Str) (d : Char),
      VerTok.wf v1 ∧ VerTok.wf v2 ∧ (∀ c ∈ ws1, pySpace c = true) ∧
      (∀ c ∈ ws2, pySpace c = true) ∧ isDashChar d = true ∧
      g = renderVer v1 ++ ws1 ++ d :: (ws2 ++ renderVer v2) := by
  unfold tryRangeAt at h
  dsimp only at h
  split at h
  · cases h
  · next v1 r1 hp1 =>
    obtain ⟨_, hwf1⟩ := parseVer_some_decomp hp1
    split at h
    · next d r3 hdw =>
      split at h
      · next hd =>
        split at h
        · cases h
        · next v2 rest hp2 =>
          obtain ⟨_, hwf2⟩ := parseVer_some_decomp hp2
          have hws1 : ∀ c ∈ r1.takeWhile pySpace, pySpace c = true :=
            fun c hc => List.mem_takeWhile_imp hc
          have hws2 : ∀ c ∈ r3.takeWhile pySpace, pySpace c = true :=
            fun c hc => List.mem_takeWhile_imp hc
          split at h
          · injection h with h
            exact ⟨v1, v2, _, _, d, hwf1, hwf2, hws1, hws2, hd, h.symm⟩
          · split at h
            · cases h
            · injection h with h
              exact ⟨v1, _, _, _, d, hwf1, wf_dropLast hwf2, hws1, hws2, hd, h.symm⟩
      · cases h
    · cases h

theorem searchRange_inv {s g : Str} (h : searchRange s = some g) :
    ∃ (v1 v2 : VerTok) (ws1 ws2 : Str) (d : Char),
      VerTok.wf v1 ∧ VerTok.wf v2 ∧ (∀ c ∈ ws1, pySpace c = true) ∧
      (∀ c ∈ ws2, pySpace c = true) ∧ isDashChar d = true ∧
      g = renderVer v1 ++ ws1 ++ d :: (ws2 ++ renderVer v2) := by
  unfold searchRange at h
  generalize false = pw at h
  induction s generalizing pw with
  | nil => cases h
  | cons c rest ih =>
    unfold searchRangeGo at h
    split at h
    · next g2 hg =>
      injection h with h
      subst h
      split at hg
      · exact tryRangeAt_inv hg
      · cases hg
    · exact ih _ h

theorem fullVR_strip_id {s : Str} (h : fullVersionOrRange s = true) : pyStrip s = s := by
  unfold fullVersionOrRange at h
  split at h
  · cases h
  · next v rest hp =>
    obtain ⟨hdec, hwf⟩ := parseVer_some_decomp hp
    obtain ⟨c0, hc0, hc0d⟩ := renderVer_head hwf
    apply pyStrip_eq_self
    · intro c hc
      rw [hdec] at hc
      cases hrv : renderVer v with
      | nil => exact absurd hrv (renderVer_ne_nil hwf)
      | cons x xs =>
        rw [hrv] at hc hc0
        simp only [List.cons_append, List.head?_cons, Option.some.injEq] at hc hc0
        subst hc
        rw [← hc0] at hc0d
        exact digit_not_space hc0d
    · intro c hc
      split at h
      · -- no range part: s = renderVer v
        rw [List.append_nil] at hdec
        obtain ⟨cl, hcl, hcld⟩ := renderVer_getLast hwf
        rw [hdec, hcl] at hc
        injection hc with hc
        subst hc
        exact digit_not_space hcld
      · rename_i a rtail
        split at h
        · next d r2 hdw =>
          split at h
          · next hd =>
            split at h
            · next v2 rest2 hp2 =>
              obtain ⟨hdec2, hwf2⟩ := parseVer_some_decomp hp2
              have hrest2 : rest2 = [] := by
                cases rest2 with
                | nil => rfl
                | cons a b => simp at h
              rw [hrest2, List.append_nil] at hdec2
              obtain ⟨cl, hcl, hcld⟩ := renderVer_getLast hwf2
              have hrvne : renderVer v2 ≠ [] := renderVer_ne_nil hwf2
              have hsplit1 : a :: rtail = (a :: rtail).takeWhile pySpace ++ (d :: r2) := by
                rw [← hdw]
                exact (List.takeWhile_append_dropWhile pySpace (a :: rtail)).symm
              have hsplit2 : r2 = r2.takeWhile pySpace ++ renderVer v2 := by
                rw [← hdec2]
                exact (List.takeWhile_append_dropWhile pySpace r2).symm
              have hs2 : s = renderVer v ++
                  ((a :: rtail).takeWhile pySpace ++
                    (d :: (r2.takeWhile pySpace ++ renderVer v2))) := by
                rw [hdec]
                conv_lhs => rw [hsplit1]
                conv_lhs => rw [hsplit2]
              rw [hs2] at hc
              rw [List.getLast?_append_of_ne_nil _ (by simp)] at hc
              rw [List.getLast?_append_of_ne_nil _ (by simp)] at hc
              have hcons : (d :: (r2.takeWhile pySpace ++ renderVer v2)) =
                  [d] ++ (r2.takeWhile pySpace ++ renderVer v2) := rfl
              rw [hcons, List.getLast?_append_of_ne_nil _ (by simp [hrvne])] at hc
              rw [List.getLast?_append_of_ne_nil _ hrvne] at hc
              rw [hcl] at hc
              injection hc with hc
              subst hc
              exact digit_not_space hcld
            · cases h
          · cases h
        · cases h

theorem normalize_os_fixed {t : Str} (h : fullVersionOrRange t = true) :
    normalize_os t = t := by
  have hs := fullVR_strip_id h
  unfold normalize_os
  dsimp only
  rw [hs, if_pos h]

/-- Claim C7 amended: the macOS version normalizer returns the TRIMMED
input whenever the trimmed input already matches the bare-version grammar
or the version-range grammar (en dash, em dash or hyphen separator, dashes
not normalized); in particular it is the identity on every string that
itself matches that grammar. -/
theorem normalize_os_canonical :
    (∀ s : Str, fullVersionOrRange (pyStrip s) = true → normalize_os s = pyStrip s) ∧
    (∀ s : Str, fullVersionOrRange s = true → normalize_os s = s) := by
  constructor
  · intro s h
    unfold normalize_os
    dsimp only
    rw [if_pos h]
  · intro s h
    exact normalize_os_fixed h

theorem normalize_os_canonical_witness :
    normalize_os (strL (" 10.8 – 10.11")) = pyStrip (strL (" 10.8 – 10.11")) ∧
    normalize_os (strL ("10.8")) = strL ("10.8") :=
  ⟨normalize_os_canonical.1 (strL (" 10.8 – 10.11")) (by decide),
   normalize_os_canonical.2 (strL ("10.8")) (by decide)⟩

/-- Claim C10: the macOS version normalizer is idempotent: its output is
always a fixed point, whether it returned the trimmed input, an extracted
range, an extracted single version, or the unparseable trimmed text. -/
theorem normalize_os_idem (s : Str) :
    normalize_os (normalize_os s) = normalize_os s := by
  by_cases h1 : fullVersionOrRange (pyStrip s) = true
  · have he : normalize_os s = pyStrip s := by
      unfold normalize_os
      dsimp only
      rw [if_pos h1]
    rw [he]
    unfold normalize_os
    dsimp only
    rw [pyStrip_idem, if_pos h1]
  · have h1f : fullVersionOrRange (pyStrip s) = false := Bool.eq_false_iff.mpr h1
    cases h2 : searchRange (pyStrip s) with
    | some g =>
      have he : normalize_os s = g := by
        unfold normalize_os
        dsimp only
        simp only [h1f, Bool.false_eq_true, if_false, h2]
      rw [he]
      obtain ⟨v1, v2, ws1, ws2, d, hwf1, hwf2, hsp1, hsp2, hdd, hg⟩ := searchRange_inv h2
      rw [hg]
      exact normalize_os_fixed (fullVR_range hwf1 hwf2 hsp1 hsp2 hdd)
    | none =>
      cases h3 : searchSingle (pyStrip s) with
      | some g =>
        have he : normalize_os s = g := by
          unfold normalize_os
          dsimp only
          simp only [h1f, Bool.false_eq_true, if_false, h2, h3]
        rw [he]
        obtain ⟨v, hwf, hg⟩ := searchSingle_inv h3
        rw [hg]
        exact normalize_os_fixed (fullVR_render hwf)
      | none =>
        have he : normalize_os s = pyStrip s := by
          unfold normalize_os
          dsimp only
          simp only [h1f, Bool.false_eq_true, if_false, h2, h3]
        rw [he]
        unfold normalize_os
        dsimp only
        rw [pyStrip_idem]
        simp only [h1f, Bool.false_eq_true, if_false, h2, h3]
